import Mathlib

/-!
Shallow embedding of the `indexlist` crate (`src/lib.rs`): a doubly linked
list backed by a growable array of slots, with generational indexes.

Machine integers (`usize`) are modelled as `Nat`; the `Vec<Entry<T>>` is a
`List (Entry T)`.  Rust operations that can abort (unchecked indexing,
`unwrap`, and the explicit corrupted-list aborts) are modelled in the
`PRes` result type, whose `panic` constructor marks those paths; all other
paths produce `PRes.ok` with the returned value and the updated container.

Two code blocks are repeated verbatim inside several source functions and
are factored here into shared definitions:
* `allocSlot` — the `if let Some(position) = self.next_free { .. } else
  { .. }` slot-selection block of `push_back`, `push_front`,
  `insert_before` and `insert_after`;
* `fixLink` — the `match &mut self.contents[i] { Free => panic, Occupied(e)
  => e.next/prev = .. }` neighbour-repair block of the mutating operations.
-/

set_option maxRecDepth 8000

/-- Outcome of a Rust computation: either a value, or an abort. -/
inductive PRes (α : Type _) where
  | panic : PRes α
  | ok (val : α) : PRes α
deriving DecidableEq, Repr

/-- An occupied slot: `OccupiedEntry<T>` (lib.rs lines 117-123). -/
structure OccupiedEntry (T : Type) where
  item : T
  generation : Nat
  next : Option Nat
  prev : Option Nat
deriving DecidableEq, Repr

/-- A slot of the table: `Entry<T>` (lib.rs lines 111-115). -/
inductive Entry (T : Type) where
  | free (next_free : Option Nat) : Entry T
  | occupied (e : OccupiedEntry T) : Entry T
deriving DecidableEq, Repr

/-- The container: `IndexList<T>` (lib.rs lines 102-109). -/
structure IndexList (T : Type) where
  contents : List (Entry T)
  generation : Nat
  next_free : Option Nat
  head : Option Nat
  tail : Option Nat
deriving DecidableEq, Repr

/-- A generational handle: `Index<T>` (lib.rs lines 175-180); the
`PhantomData` marker carries no data and is dropped. -/
structure Index where
  index : Nat
  generation : Nat
deriving DecidableEq, Repr

/-- Model of `IndexList::new` / `Default` (lib.rs lines 192-202, 222-224). -/
def IndexList.empty (T : Type) : IndexList T :=
  { contents := [], generation := 0, next_free := none, head := none, tail := none }

/-- Slot selection, the block repeated at lib.rs lines 390-415, 429-456,
510-537, 946-959 and 1018-1031: reuse the head of the free list when there
is one (aborting if it is out of range or not `Free`), otherwise append a
new slot.  Returns the chosen position, the updated table and the updated
`next_free`. -/
def allocSlot (contents : List (Entry T)) (next_free : Option Nat) (entry : Entry T) :
    PRes (Nat × List (Entry T) × Option Nat) :=
  match next_free with
  | some position =>
    match contents[position]? with
    | none => PRes.panic                          -- out-of-range indexing
    | some (Entry.occupied _) => PRes.panic       -- "Corrupted list"
    | some (Entry.free nf) =>
      PRes.ok (position, contents.set position entry, nf)
  | none =>
    PRes.ok (contents.length, contents ++ [entry], next_free)

/-- Neighbour repair, the block repeated at lib.rs lines 462-465, 544-547,
864-901, 960-978, 1032-1050 and 1186-1192: the entry at `i` must be
`Occupied` (else the Rust code aborts) and one of its link fields is
rewritten by `f`. -/
def fixLink (contents : List (Entry T)) (i : Nat)
    (f : OccupiedEntry T → OccupiedEntry T) : PRes (List (Entry T)) :=
  match contents[i]? with
  | none => PRes.panic                            -- out-of-range indexing
  | some (Entry.free _) => PRes.panic             -- "Corrupted list"
  | some (Entry.occupied e) => PRes.ok (contents.set i (Entry.occupied (f e)))

namespace IndexList

variable {T : Type}

/-- Model of `IndexList::get` (lib.rs lines 645-650). -/
def get (l : IndexList T) (index : Index) : Option T :=
  match l.contents[index.index]? with
  | some (Entry.occupied e) =>
    if e.generation = index.generation then some e.item else none
  | _ => none

/-- Model of `IndexList::get_mut` (lib.rs lines 714-719), lookup semantics.  The Rust
code indexes `self.contents[index.index]` without a bounds check, so an
out-of-range position aborts. -/
def get_mut (l : IndexList T) (index : Index) : PRes (Option T) :=
  match l.contents[index.index]? with
  | none => PRes.panic
  | some (Entry.occupied e) =>
    PRes.ok (if e.generation = index.generation then some e.item else none)
  | some (Entry.free _) => PRes.ok none

/-- Model of `IndexList::next_index` (lib.rs lines 721-734). -/
def next_index (l : IndexList T) (index : Index) : Option (Index) :=
  match l.contents[index.index]? with
  | some (Entry.occupied e) =>
    if e.generation = index.generation then
      match e.next with
      | some n =>
        match l.contents[n]? with
        | some (Entry.occupied e2) => some ⟨n, e2.generation⟩
        | some (Entry.free _) => none   -- Rust aborts here ("Corrupted list")
        | none => none                  -- `self.contents.get(index)?`
      | none => none                    -- element at the end of the list
    else none                           -- outdated index
  | _ => none

/-- Model of `IndexList::prev_index` (lib.rs lines 736-749). -/
def prev_index (l : IndexList T) (index : Index) : Option (Index) :=
  match l.contents[index.index]? with
  | some (Entry.occupied e) =>
    if e.generation = index.generation then
      match e.prev with
      | some p =>
        match l.contents[p]? with
        | some (Entry.occupied e2) => some ⟨p, e2.generation⟩
        | some (Entry.free _) => none   -- Rust aborts here ("Corrupted list")
        | none => none                  -- `self.contents.get(index)?`
      | none => none                    -- element at the start of the list
    else none                           -- outdated index
  | _ => none

/-- Model of `IndexList::push_back` (lib.rs lines 383-472). -/
def push_back (l : IndexList T) (item : T) : PRes (Index × IndexList T) :=
  match l.head with
  | none =>
    -- empty list: install the sole element as both head and tail
    match allocSlot l.contents l.next_free
        (Entry.occupied ⟨item, l.generation, none, none⟩) with
    | PRes.panic => PRes.panic
    | PRes.ok (index, contents, next_free) =>
      PRes.ok (⟨index, l.generation⟩,
        { l with contents := contents, next_free := next_free,
                 head := some index, tail := some index })
  | some _ =>
    match l.tail with
    | none => PRes.panic                          -- `self.tail.unwrap()`
    | some tail_index =>
      match allocSlot l.contents l.next_free
          (Entry.occupied ⟨item, l.generation, none, some tail_index⟩) with
      | PRes.panic => PRes.panic
      | PRes.ok (position, c1, next_free) =>
        -- fix up the old tail entry to refer to the new element
        match fixLink c1 tail_index (fun e => { e with next := some position }) with
        | PRes.panic => PRes.panic
        | PRes.ok c2 =>
          PRes.ok (⟨position, l.generation⟩,
            { l with contents := c2, next_free := next_free,
                     tail := some position })

/-- Model of `IndexList::push_front` (lib.rs lines 496-554). -/
def push_front (l : IndexList T) (item : T) : PRes (Index × IndexList T) :=
  match l.head with
  | none => l.push_back item
  | some head_index =>
    match allocSlot l.contents l.next_free
        (Entry.occupied ⟨item, l.generation, some head_index, none⟩) with
    | PRes.panic => PRes.panic
    | PRes.ok (position, c1, next_free) =>
      -- fix up the old head entry to refer to the new element
      match fixLink c1 head_index (fun e => { e with prev := some position }) with
      | PRes.panic => PRes.panic
      | PRes.ok c2 =>
        PRes.ok (⟨position, l.generation⟩,
          { l with contents := c2, next_free := next_free,
                   head := some position })

/-- Model of `IndexList::remove` (lib.rs lines 816-908). -/
def remove (l : IndexList T) (index : Index) : PRes (Option T × IndexList T) :=
  match l.head with
  | none => PRes.ok (none, l)
  | some head_index =>
  match l.tail with
  | none => PRes.ok (none, l)
  | some tail_index =>
  match l.contents[index.index]? with
  | none => PRes.ok (none, l)                     -- `self.contents.get(..)?`
  | some (Entry.free _) => PRes.ok (none, l)
  | some (Entry.occupied e) =>
    if index.generation ≠ e.generation then PRes.ok (none, l) else
    -- detach: free the slot, push it on the free list, bump the generation
    let pos := index.index
    let c1 := l.contents.set pos (Entry.free l.next_free)
    let l1 : IndexList T :=
      { l with contents := c1, next_free := some pos,
               generation := l.generation + 1 }
    if pos = head_index ∧ pos = tail_index then
      -- sole element of the list
      PRes.ok (some e.item, { l1 with head := none, tail := none })
    else if pos = head_index then
      match e.next with
      | none => PRes.panic                        -- `next_index.unwrap()`
      | some ni =>
        match fixLink c1 ni (fun ne => { ne with prev := none }) with
        | PRes.panic => PRes.panic
        | PRes.ok c2 =>
          PRes.ok (some e.item, { l1 with contents := c2, head := e.next })
    else if pos = tail_index then
      match e.prev with
      | none => PRes.panic                        -- `prev_index.unwrap()`
      | some pi =>
        match fixLink c1 pi (fun pe => { pe with next := none }) with
        | PRes.panic => PRes.panic
        | PRes.ok c2 =>
          PRes.ok (some e.item, { l1 with contents := c2, tail := e.prev })
    else
      -- interior element: fix up next, then prev
      match e.next with
      | none => PRes.panic                        -- `next_index.unwrap()`
      | some ni =>
        match fixLink c1 ni (fun ne => { ne with prev := e.prev }) with
        | PRes.panic => PRes.panic
        | PRes.ok c2 =>
          match e.prev with
          | none => PRes.panic                    -- `prev_index.unwrap()`
          | some pi =>
            match fixLink c2 pi (fun pe => { pe with next := e.next }) with
            | PRes.panic => PRes.panic
            | PRes.ok c3 =>
              PRes.ok (some e.item, { l1 with contents := c3 })

/-- Model of `IndexList::pop_front` (lib.rs lines 1148-1199). -/
def pop_front (l : IndexList T) : PRes (Option T × IndexList T) :=
  match l.head with
  | none => PRes.ok (none, l)
  | some head_index =>
  match l.contents[head_index]? with
  | none => PRes.ok (none, l)                     -- `self.contents.get(..)?`
  | some (Entry.free _) => PRes.ok (none, l)
  | some (Entry.occupied e) =>
    let c1 := l.contents.set head_index (Entry.free l.next_free)
    let l1 : IndexList T :=
      { l with contents := c1, next_free := some head_index,
               generation := l.generation + 1 }
    if some head_index = l.tail then
      PRes.ok (some e.item, { l1 with head := none, tail := none })
    else
      match e.next with
      | none => PRes.panic                        -- `next_index.unwrap()`
      | some ni =>
        match fixLink c1 ni (fun ne => { ne with prev := none }) with
        | PRes.panic => PRes.panic
        | PRes.ok c2 =>
          PRes.ok (some e.item, { l1 with contents := c2, head := e.next })

/-- Model of `IndexList::insert_before` (lib.rs lines 927-980). -/
def insert_before (l : IndexList T) (index : Index) (item : T) :
    PRes (Option (Index) × IndexList T) :=
  match l.contents[index.index]? with
  | none => PRes.ok (none, l)                     -- `self.contents.get(..)?`
  | some (Entry.free _) => PRes.ok (none, l)
  | some (Entry.occupied e) =>
    if index.generation ≠ e.generation then PRes.ok (none, l) else
    let pos := index.index
    match allocSlot l.contents l.next_free
        (Entry.occupied ⟨item, l.generation, some pos, e.prev⟩) with
    | PRes.panic => PRes.panic
    | PRes.ok (position, c1, next_free) =>
      -- the target's prev now points at the new element
      match fixLink c1 pos (fun te => { te with prev := some position }) with
      | PRes.panic => PRes.panic
      | PRes.ok c2 =>
        -- update the old prev node, or the head if there was none
        match e.prev with
        | some pi =>
          match fixLink c2 pi (fun pe => { pe with next := some position }) with
          | PRes.panic => PRes.panic
          | PRes.ok c3 =>
            PRes.ok (some ⟨position, l.generation⟩,
              { l with contents := c3, next_free := next_free })
        | none =>
          PRes.ok (some ⟨position, l.generation⟩,
            { l with contents := c2, next_free := next_free,
                     head := some position })

/-- Model of `IndexList::insert_after` (lib.rs lines 999-1052). -/
def insert_after (l : IndexList T) (index : Index) (item : T) :
    PRes (Option (Index) × IndexList T) :=
  match l.contents[index.index]? with
  | none => PRes.ok (none, l)                     -- `self.contents.get(..)?`
  | some (Entry.free _) => PRes.ok (none, l)
  | some (Entry.occupied e) =>
    if index.generation ≠ e.generation then PRes.ok (none, l) else
    let pos := index.index
    match allocSlot l.contents l.next_free
        (Entry.occupied ⟨item, l.generation, e.next, some pos⟩) with
    | PRes.panic => PRes.panic
    | PRes.ok (position, c1, next_free) =>
      -- the target's next now points at the new element
      match fixLink c1 pos (fun te => { te with next := some position }) with
      | PRes.panic => PRes.panic
      | PRes.ok c2 =>
        -- update the old next node, or the tail if there was none
        match e.next with
        | some ni =>
          match fixLink c2 ni (fun ne => { ne with prev := some position }) with
          | PRes.panic => PRes.panic
          | PRes.ok c3 =>
            PRes.ok (some ⟨position, l.generation⟩,
              { l with contents := c3, next_free := next_free })
        | none =>
          PRes.ok (some ⟨position, l.generation⟩,
            { l with contents := c2, next_free := next_free,
                     tail := some position })

end IndexList

/-- Model of `Iter::next` (lib.rs lines 1250-1268) run to completion from a start
position, driven by a fuel counter.  Reaching a missing or `Free` entry is
the Rust iterator's abort; running out of fuel marks a chain longer than
the table (impossible for well-formed lists), also as a non-result. -/
def iterFrom (contents : List (Entry T)) : Nat → Option Nat → PRes (List T)
  | _, none => PRes.ok []
  | 0, some _ => PRes.panic
  | fuel + 1, some i =>
    match contents[i]? with
    | some (Entry.occupied e) =>
      match iterFrom contents fuel e.next with
      | PRes.ok rest => PRes.ok (e.item :: rest)
      | PRes.panic => PRes.panic
    | _ => PRes.panic                             -- "Corrupted list"

/-- Model of `IndexList::iter` collected to a list (lib.rs lines 1076-1081): follow
`next` links from `head`. -/
def IndexList.iterList (l : IndexList T) : PRes (List T) :=
  iterFrom l.contents (l.contents.length + 1) l.head

/-!  ## Helper lemmas about slots and the shared blocks  -/

/-- The observable payload of a slot: the item and generation stamp of an
`Occupied` entry; `none` for `Free` or missing slots. -/
def occData : Option (Entry T) → Option (T × Nat)
  | some (Entry.occupied e) => some (e.item, e.generation)
  | _ => none

@[simp] theorem occData_none {T : Type} : occData (none : Option (Entry T)) = none := rfl

@[simp] theorem occData_some_free {T : Type} (nf : Option Nat) :
    occData (some (Entry.free nf) : Option (Entry T)) = none := rfl

@[simp] theorem occData_some_occ {T : Type} (e : OccupiedEntry T) :
    occData (some (Entry.occupied e)) = some (e.item, e.generation) := rfl

theorem getElem?_concat_ne {α : Type _} {cs : List α} {a : α} {p : Nat}
    (h : p ≠ cs.length) : (cs ++ [a])[p]? = cs[p]? := by
  rcases Nat.lt_or_ge p cs.length with hp | hp
  · exact List.getElem?_append_left hp
  · have h1 : cs.length < p := Nat.lt_of_le_of_ne hp (Ne.symm h)
    have h2 : cs[p]? = none := List.getElem?_eq_none hp
    have h3 : ([a] : List α)[p - cs.length]? = none :=
      List.getElem?_eq_none (by simp; omega)
    rw [List.getElem?_append_right (Nat.le_of_lt h1), h2, h3]

theorem allocSlot_ok {T : Type} {cs : List (Entry T)} {nf : Option Nat}
    {en : Entry T} {pos : Nat} {cs' : List (Entry T)} {nf' : Option Nat}
    (h : allocSlot cs nf en = PRes.ok (pos, cs', nf')) :
    occData (cs[pos]?) = none ∧
    cs'[pos]? = some en ∧
    (∀ p, p ≠ pos → cs'[p]? = cs[p]?) ∧
    cs.length ≤ cs'.length ∧
    (∀ q, nf = some q → pos = q ∧ cs'.length = cs.length) := by
  rcases nf with - | position
  · simp only [allocSlot, PRes.ok.injEq, Prod.mk.injEq] at h
    obtain ⟨rfl, rfl, rfl⟩ := h
    refine ⟨by simp, List.getElem?_concat_length cs en, ?_, by simp, ?_⟩
    · intro p hp
      exact getElem?_concat_ne hp
    · intro q hq
      cases hq
  · simp only [allocSlot] at h
    rcases heq : cs[position]? with - | en2
    · rw [heq] at h
      simp at h
    · rcases en2 with nf2 | e2
      · rw [heq] at h
        simp only [PRes.ok.injEq, Prod.mk.injEq] at h
        obtain ⟨rfl, rfl, rfl⟩ := h
        have hlt := (List.getElem?_eq_some_iff.mp heq).1
        refine ⟨by rw [heq]; simp, by simp [List.getElem?_set_self hlt], ?_, by simp, ?_⟩
        · intro p hp
          exact List.getElem?_set_ne (Ne.symm hp)
        · intro q hq
          cases hq
          exact ⟨rfl, by simp⟩
      · rw [heq] at h
        simp at h

theorem fixLink_ok {T : Type} {cs : List (Entry T)} {i : Nat}
    {f : OccupiedEntry T → OccupiedEntry T} {cs' : List (Entry T)}
    (h : fixLink cs i f = PRes.ok cs') :
    ∃ e, cs[i]? = some (Entry.occupied e) ∧
      cs' = cs.set i (Entry.occupied (f e)) ∧
      cs'.length = cs.length ∧
      cs'[i]? = some (Entry.occupied (f e)) ∧
      (∀ p, p ≠ i → cs'[p]? = cs[p]?) := by
  unfold fixLink at h
  split at h
  · simp at h
  · simp at h
  · rename_i e heq
    simp only [PRes.ok.injEq] at h
    subst h
    have hlt : i < cs.length := (List.getElem?_eq_some_iff.mp heq).1
    refine ⟨e, heq, rfl, by simp, by simp [List.getElem?_set_self hlt], ?_⟩
    intro p hp
    exact List.getElem?_set_ne (Ne.symm hp)

theorem fixLink_occData {T : Type} {cs : List (Entry T)} {i : Nat}
    {f : OccupiedEntry T → OccupiedEntry T} {cs' : List (Entry T)}
    (h : fixLink cs i f = PRes.ok cs')
    (hf : ∀ e, (f e).item = e.item ∧ (f e).generation = e.generation) :
    ∀ p : Nat, occData (cs'[p]?) = occData (cs[p]?) := by
  obtain ⟨e, heq, -, -, hi, hfr⟩ := fixLink_ok h
  intro p
  by_cases hp : p = i
  · subst hp
    rw [hi, heq]
    simp [(hf e).1, (hf e).2]
  · rw [hfr p hp]

theorem fixLink_length {T : Type} {cs : List (Entry T)} {i : Nat}
    {f : OccupiedEntry T → OccupiedEntry T} {cs' : List (Entry T)}
    (h : fixLink cs i f = PRes.ok cs') : cs'.length = cs.length := by
  obtain ⟨e, -, -, hl, -, -⟩ := fixLink_ok h
  exact hl

namespace IndexList

variable {T : Type}

theorem occData_of_get_some {l : IndexList T} {i : Index} {v : T}
    (h : l.get i = some v) :
    occData (l.contents[i.index]?) = some (v, i.generation) := by
  unfold get at h
  split at h
  · rename_i e heq
    rw [heq]
    split at h
    · rename_i hg
      cases h
      simp [hg]
    · cases h
  · cases h

theorem get_eq_none_of_occData_none {l : IndexList T} {i : Index}
    (h : occData (l.contents[i.index]?) = none) : l.get i = none := by
  unfold get
  split
  · rename_i e heq
    rw [heq] at h
    simp at h
  · rfl

theorem get_eq_some_of_occData {l : IndexList T} {i : Index} {v : T}
    (h : occData (l.contents[i.index]?) = some (v, i.generation)) :
    l.get i = some v := by
  unfold get
  split
  · rename_i e heq
    rw [heq] at h
    simp at h
    simp [h.2, h.1]
  · rename_i hne
    rcases hc : l.contents[i.index]? with - | en
    · rw [hc] at h; simp at h
    · cases en with
      | free nf => rw [hc] at h; simp at h
      | occupied e => exact (hne e hc).elim

theorem get_eq_none_of_gen_ne {l : IndexList T} {i : Index} {v : T} {g : Nat}
    (h : occData (l.contents[i.index]?) = some (v, g))
    (hg : g ≠ i.generation) : l.get i = none := by
  unfold get
  split
  · rename_i e heq
    rw [heq] at h
    simp at h
    rw [if_neg (h.2 ▸ hg)]
  · rfl

end IndexList

namespace IndexList

variable {T : Type}

theorem push_back_ok {l : IndexList T} {x : T} {j : Index} {l' : IndexList T}
    (h : l.push_back x = PRes.ok (j, l')) :
    l'.generation = l.generation ∧
    j.generation = l.generation ∧
    occData (l.contents[j.index]?) = none ∧
    occData (l'.contents[j.index]?) = some (x, l.generation) ∧
    (∀ p : Nat, p ≠ j.index → occData (l'.contents[p]?) = occData (l.contents[p]?)) ∧
    (∀ q, l.next_free = some q → j.index = q ∧ l'.contents.length = l.contents.length) := by
  unfold push_back at h
  split at h
  · -- l.head = none
    split at h
    · simp at h
    · rename_i pos cs1 nf1 ha
      simp only [PRes.ok.injEq, Prod.mk.injEq] at h
      obtain ⟨rfl, rfl⟩ := h
      obtain ⟨ho, hocc, hfr, -, hq⟩ := allocSlot_ok ha
      refine ⟨rfl, rfl, ho, ?_, ?_, ?_⟩
      · rw [hocc]
        simp
      · intro p hp
        rw [hfr p hp]
      · intro q hqf
        obtain ⟨h1, h2⟩ := hq q hqf
        exact ⟨h1, h2⟩
  · -- l.head = some
    split at h
    · simp at h
    · rename_i tail_index htl
      split at h
      · simp at h
      · rename_i pos cs1 nf1 ha
        split at h
        · simp at h
        · rename_i cs2 hfx
          simp only [PRes.ok.injEq, Prod.mk.injEq] at h
          obtain ⟨rfl, rfl⟩ := h
          obtain ⟨ho, hocc, hfr, -, hq⟩ := allocSlot_ok ha
          have hfd := fixLink_occData hfx (fun e => ⟨rfl, rfl⟩)
          have hflen := fixLink_length hfx
          refine ⟨rfl, rfl, ho, ?_, ?_, ?_⟩
          · rw [hfd pos, hocc]
            simp
          · intro p hp
            rw [hfd p, hfr p hp]
          · intro q hqf
            obtain ⟨h1, h2⟩ := hq q hqf
            exact ⟨h1, by rw [hflen]; exact h2⟩

end IndexList

namespace IndexList

variable {T : Type}

theorem push_front_ok {l : IndexList T} {x : T} {j : Index} {l' : IndexList T}
    (h : l.push_front x = PRes.ok (j, l')) :
    l'.generation = l.generation ∧
    j.generation = l.generation ∧
    occData (l.contents[j.index]?) = none ∧
    occData (l'.contents[j.index]?) = some (x, l.generation) ∧
    (∀ p : Nat, p ≠ j.index → occData (l'.contents[p]?) = occData (l.contents[p]?)) ∧
    (∀ q, l.next_free = some q → j.index = q ∧ l'.contents.length = l.contents.length) := by
  unfold push_front at h
  split at h
  · exact push_back_ok h
  · rename_i head_index hhd
    split at h
    · simp at h
    · rename_i pos cs1 nf1 ha
      split at h
      · simp at h
      · rename_i cs2 hfx
        simp only [PRes.ok.injEq, Prod.mk.injEq] at h
        obtain ⟨rfl, rfl⟩ := h
        obtain ⟨ho, hocc, hfr, -, hq⟩ := allocSlot_ok ha
        have hfd := fixLink_occData hfx (fun e => ⟨rfl, rfl⟩)
        have hflen := fixLink_length hfx
        refine ⟨rfl, rfl, ho, ?_, ?_, ?_⟩
        · rw [hfd pos, hocc]
          simp
        · intro p hp
          rw [hfd p, hfr p hp]
        · intro q hqf
          obtain ⟨h1, h2⟩ := hq q hqf
          exact ⟨h1, by rw [hflen]; exact h2⟩

theorem insert_before_none {l : IndexList T} {t : Index} {x : T} {l' : IndexList T}
    (h : l.insert_before t x = PRes.ok (none, l')) : l' = l := by
  unfold insert_before at h
  simp only [] at h
  split at h
  · simp only [PRes.ok.injEq, Prod.mk.injEq] at h
    exact h.2.symm
  · simp only [PRes.ok.injEq, Prod.mk.injEq] at h
    exact h.2.symm
  · rename_i e heq
    split at h
    · simp only [PRes.ok.injEq, Prod.mk.injEq] at h
      exact h.2.symm
    · rcases ha : allocSlot l.contents l.next_free
          (Entry.occupied ⟨x, l.generation, some t.index, e.prev⟩) with - | ⟨pos, cs1, nf1⟩
      · rw [ha] at h
        simp at h
      · rw [ha] at h
        simp only [] at h
        rcases hfx : fixLink cs1 t.index (fun te => { te with prev := some pos })
            with - | cs2
        · rw [hfx] at h
          simp at h
        · rw [hfx] at h
          simp only [] at h
          rcases hep : e.prev with - | pi
          · rw [hep] at h
            simp at h
          · rw [hep] at h
            simp only [] at h
            rcases hfx2 : fixLink cs2 pi (fun pe => { pe with next := some pos })
                with - | cs3
            · rw [hfx2] at h
              simp at h
            · rw [hfx2] at h
              simp at h

theorem insert_before_some {l : IndexList T} {t : Index} {x : T} {j : Index}
    {l' : IndexList T} (h : l.insert_before t x = PRes.ok (some j, l')) :
    l'.generation = l.generation ∧
    j.generation = l.generation ∧
    occData (l.contents[j.index]?) = none ∧
    occData (l'.contents[j.index]?) = some (x, l.generation) ∧
    (∀ p : Nat, p ≠ j.index → occData (l'.contents[p]?) = occData (l.contents[p]?)) ∧
    (∀ q, l.next_free = some q → j.index = q ∧ l'.contents.length = l.contents.length) := by
  unfold insert_before at h
  simp only [] at h
  split at h
  · simp at h
  · simp at h
  · rename_i e heq
    split at h
    · simp at h
    · rcases ha : allocSlot l.contents l.next_free
          (Entry.occupied ⟨x, l.generation, some t.index, e.prev⟩) with - | ⟨pos, cs1, nf1⟩
      · rw [ha] at h
        simp at h
      · rw [ha] at h
        simp only [] at h
        rcases hfx : fixLink cs1 t.index (fun te => { te with prev := some pos })
            with - | cs2
        · rw [hfx] at h
          simp at h
        · rw [hfx] at h
          simp only [] at h
          obtain ⟨ho, hocc, hfr, -, hq⟩ := allocSlot_ok ha
          have hfd := fixLink_occData hfx (fun en => ⟨rfl, rfl⟩)
          have hflen := fixLink_length hfx
          rcases hep : e.prev with - | pi
          · rw [hep] at h
            simp only [PRes.ok.injEq, Prod.mk.injEq, Option.some.injEq] at h
            obtain ⟨rfl, rfl⟩ := h
            refine ⟨rfl, rfl, ho, ?_, ?_, ?_⟩
            · rw [hfd pos, hocc]
              simp
            · intro p hp
              rw [hfd p, hfr p hp]
            · intro q hqf
              obtain ⟨h1, h2⟩ := hq q hqf
              exact ⟨h1, by rw [hflen]; exact h2⟩
          · rw [hep] at h
            simp only [] at h
            rcases hfx2 : fixLink cs2 pi (fun pe => { pe with next := some pos })
                with - | cs3
            · rw [hfx2] at h
              simp at h
            · rw [hfx2] at h
              have hfd2 := fixLink_occData hfx2 (fun en => ⟨rfl, rfl⟩)
              have hflen2 := fixLink_length hfx2
              simp only [PRes.ok.injEq, Prod.mk.injEq, Option.some.injEq] at h
              obtain ⟨rfl, rfl⟩ := h
              refine ⟨rfl, rfl, ho, ?_, ?_, ?_⟩
              · rw [hfd2 pos, hfd pos, hocc]
                simp
              · intro p hp
                rw [hfd2 p, hfd p, hfr p hp]
              · intro q hqf
                obtain ⟨h1, h2⟩ := hq q hqf
                exact ⟨h1, by rw [hflen2, hflen]; exact h2⟩

theorem insert_after_none {l : IndexList T} {t : Index} {x : T} {l' : IndexList T}
    (h : l.insert_after t x = PRes.ok (none, l')) : l' = l := by
  unfold insert_after at h
  simp only [] at h
  split at h
  · simp only [PRes.ok.injEq, Prod.mk.injEq] at h
    exact h.2.symm
  · simp only [PRes.ok.injEq, Prod.mk.injEq] at h
    exact h.2.symm
  · rename_i e heq
    split at h
    · simp only [PRes.ok.injEq, Prod.mk.injEq] at h
      exact h.2.symm
    · rcases ha : allocSlot l.contents l.next_free
          (Entry.occupied ⟨x, l.generation, e.next, some t.index⟩) with - | ⟨pos, cs1, nf1⟩
      · rw [ha] at h
        simp at h
      · rw [ha] at h
        simp only [] at h
        rcases hfx : fixLink cs1 t.index (fun te => { te with next := some pos })
            with - | cs2
        · rw [hfx] at h
          simp at h
        · rw [hfx] at h
          simp only [] at h
          rcases hen : e.next with - | ni
          · rw [hen] at h
            simp at h
          · rw [hen] at h
            simp only [] at h
            rcases hfx2 : fixLink cs2 ni (fun ne => { ne with prev := some pos })
                with - | cs3
            · rw [hfx2] at h
              simp at h
            · rw [hfx2] at h
              simp at h

theorem insert_after_some {l : IndexList T} {t : Index} {x : T} {j : Index}
    {l' : IndexList T} (h : l.insert_after t x = PRes.ok (some j, l')) :
    l'.generation = l.generation ∧
    j.generation = l.generation ∧
    occData (l.contents[j.index]?) = none ∧
    occData (l'.contents[j.index]?) = some (x, l.generation) ∧
    (∀ p : Nat, p ≠ j.index → occData (l'.contents[p]?) = occData (l.contents[p]?)) ∧
    (∀ q, l.next_free = some q → j.index = q ∧ l'.contents.length = l.contents.length) := by
  unfold insert_after at h
  simp only [] at h
  split at h
  · simp at h
  · simp at h
  · rename_i e heq
    split at h
    · simp at h
    · rcases ha : allocSlot l.contents l.next_free
          (Entry.occupied ⟨x, l.generation, e.next, some t.index⟩) with - | ⟨pos, cs1, nf1⟩
      · rw [ha] at h
        simp at h
      · rw [ha] at h
        simp only [] at h
        rcases hfx : fixLink cs1 t.index (fun te => { te with next := some pos })
            with - | cs2
        · rw [hfx] at h
          simp at h
        · rw [hfx] at h
          simp only [] at h
          obtain ⟨ho, hocc, hfr, -, hq⟩ := allocSlot_ok ha
          have hfd := fixLink_occData hfx (fun en => ⟨rfl, rfl⟩)
          have hflen := fixLink_length hfx
          rcases hen : e.next with - | ni
          · rw [hen] at h
            simp only [PRes.ok.injEq, Prod.mk.injEq, Option.some.injEq] at h
            obtain ⟨rfl, rfl⟩ := h
            refine ⟨rfl, rfl, ho, ?_, ?_, ?_⟩
            · rw [hfd pos, hocc]
              simp
            · intro p hp
              rw [hfd p, hfr p hp]
            · intro q hqf
              obtain ⟨h1, h2⟩ := hq q hqf
              exact ⟨h1, by rw [hflen]; exact h2⟩
          · rw [hen] at h
            simp only [] at h
            rcases hfx2 : fixLink cs2 ni (fun ne => { ne with prev := some pos })
                with - | cs3
            · rw [hfx2] at h
              simp at h
            · rw [hfx2] at h
              have hfd2 := fixLink_occData hfx2 (fun en => ⟨rfl, rfl⟩)
              have hflen2 := fixLink_length hfx2
              simp only [PRes.ok.injEq, Prod.mk.injEq, Option.some.injEq] at h
              obtain ⟨rfl, rfl⟩ := h
              refine ⟨rfl, rfl, ho, ?_, ?_, ?_⟩
              · rw [hfd2 pos, hfd pos, hocc]
                simp
              · intro p hp
                rw [hfd2 p, hfd p, hfr p hp]
              · intro q hqf
                obtain ⟨h1, h2⟩ := hq q hqf
                exact ⟨h1, by rw [hflen2, hflen]; exact h2⟩

end IndexList

namespace IndexList

variable {T : Type}

theorem remove_none {l : IndexList T} {t : Index} {l' : IndexList T}
    (h : l.remove t = PRes.ok (none, l')) : l' = l := by
  unfold remove at h
  simp only [] at h
  split at h
  · simp only [PRes.ok.injEq, Prod.mk.injEq] at h
    exact h.2.symm
  · rename_i head_index hhd
    split at h
    · simp only [PRes.ok.injEq, Prod.mk.injEq] at h
      exact h.2.symm
    · rename_i tail_index htl
      split at h
      · simp only [PRes.ok.injEq, Prod.mk.injEq] at h
        exact h.2.symm
      · simp only [PRes.ok.injEq, Prod.mk.injEq] at h
        exact h.2.symm
      · rename_i e heq
        by_cases hg : t.generation ≠ e.generation
        · rw [if_pos hg] at h
          simp only [PRes.ok.injEq, Prod.mk.injEq] at h
          exact h.2.symm
        · rw [if_neg hg] at h
          by_cases hc1 : t.index = head_index ∧ t.index = tail_index
          · rw [if_pos hc1] at h
            simp at h
          · rw [if_neg hc1] at h
            by_cases hc2 : t.index = head_index
            · rw [if_pos hc2] at h
              rcases hen : e.next with - | ni
              · rw [hen] at h
                simp at h
              · rw [hen] at h
                simp only [] at h
                rcases hfx : fixLink (l.contents.set t.index (Entry.free l.next_free)) ni
                    (fun ne => { ne with prev := none }) with - | cs2
                · rw [hfx] at h
                  simp at h
                · rw [hfx] at h
                  simp at h
            · rw [if_neg hc2] at h
              by_cases hc3 : t.index = tail_index
              · rw [if_pos hc3] at h
                rcases hep : e.prev with - | pi
                · rw [hep] at h
                  simp at h
                · rw [hep] at h
                  simp only [] at h
                  rcases hfx : fixLink (l.contents.set t.index (Entry.free l.next_free)) pi
                      (fun pe => { pe with next := none }) with - | cs2
                  · rw [hfx] at h
                    simp at h
                  · rw [hfx] at h
                    simp at h
              · rw [if_neg hc3] at h
                rcases hen : e.next with - | ni
                · rw [hen] at h
                  simp at h
                · rw [hen] at h
                  simp only [] at h
                  rcases hfx : fixLink (l.contents.set t.index (Entry.free l.next_free)) ni
                      (fun ne => { ne with prev := e.prev }) with - | cs2
                  · rw [hfx] at h
                    simp at h
                  · rw [hfx] at h
                    simp only [] at h
                    rcases hep : e.prev with - | pi
                    · rw [hep] at h
                      simp at h
                    · rw [hep] at h
                      simp only [] at h
                      rcases hfx2 : fixLink cs2 pi
                          (fun pe => { pe with next := some ni }) with - | cs3
                      · rw [hfx2] at h
                        simp at h
                      · rw [hfx2] at h
                        simp at h

end IndexList

namespace IndexList

variable {T : Type}

theorem remove_some {l : IndexList T} {t : Index} {v : T} {l' : IndexList T}
    (h : l.remove t = PRes.ok (some v, l')) :
    l'.generation = l.generation + 1 ∧
    l'.next_free = some t.index ∧
    occData (l.contents[t.index]?) = some (v, t.generation) ∧
    occData (l'.contents[t.index]?) = none ∧
    (∀ p : Nat, p ≠ t.index → occData (l'.contents[p]?) = occData (l.contents[p]?)) ∧
    l'.contents.length = l.contents.length := by
  unfold remove at h
  simp only [] at h
  split at h
  · simp at h
  · rename_i head_index hhd
    split at h
    · simp at h
    · rename_i tail_index htl
      split at h
      · simp at h
      · simp at h
      · rename_i e heq
        have hlt : t.index < l.contents.length := (List.getElem?_eq_some_iff.mp heq).1
        by_cases hg : t.generation ≠ e.generation
        · rw [if_pos hg] at h
          simp at h
        · rw [if_neg hg] at h
          have hg2 : e.generation = t.generation := (not_ne_iff.mp hg).symm
          by_cases hc1 : t.index = head_index ∧ t.index = tail_index
          · rw [if_pos hc1] at h
            simp only [PRes.ok.injEq, Prod.mk.injEq, Option.some.injEq] at h
            obtain ⟨rfl, rfl⟩ := h
            refine ⟨rfl, rfl, by rw [heq]; simp [hg2], ?_, ?_, by simp⟩
            · simp [List.getElem?_set_self hlt]
            · intro p hp
              rw [List.getElem?_set_ne (Ne.symm hp)]
          · rw [if_neg hc1] at h
            by_cases hc2 : t.index = head_index
            · rw [if_pos hc2] at h
              rcases hen : e.next with - | ni
              · rw [hen] at h
                simp at h
              · rw [hen] at h
                simp only [] at h
                rcases hfx : fixLink (l.contents.set t.index (Entry.free l.next_free)) ni
                    (fun ne => { ne with prev := none }) with - | cs2
                · rw [hfx] at h
                  simp at h
                · rw [hfx] at h
                  have hfd := fixLink_occData hfx (fun en => ⟨rfl, rfl⟩)
                  have hflen := fixLink_length hfx
                  simp only [PRes.ok.injEq, Prod.mk.injEq, Option.some.injEq] at h
                  obtain ⟨rfl, rfl⟩ := h
                  refine ⟨rfl, rfl, by rw [heq]; simp [hg2], ?_, ?_, ?_⟩
                  · rw [hfd t.index]
                    simp [List.getElem?_set_self hlt]
                  · intro p hp
                    rw [hfd p, List.getElem?_set_ne (Ne.symm hp)]
                  · rw [hflen]
                    simp
            · rw [if_neg hc2] at h
              by_cases hc3 : t.index = tail_index
              · rw [if_pos hc3] at h
                rcases hep : e.prev with - | pi
                · rw [hep] at h
                  simp at h
                · rw [hep] at h
                  simp only [] at h
                  rcases hfx : fixLink (l.contents.set t.index (Entry.free l.next_free)) pi
                      (fun pe => { pe with next := none }) with - | cs2
                  · rw [hfx] at h
                    simp at h
                  · rw [hfx] at h
                    have hfd := fixLink_occData hfx (fun en => ⟨rfl, rfl⟩)
                    have hflen := fixLink_length hfx
                    simp only [PRes.ok.injEq, Prod.mk.injEq, Option.some.injEq] at h
                    obtain ⟨rfl, rfl⟩ := h
                    refine ⟨rfl, rfl, by rw [heq]; simp [hg2], ?_, ?_, ?_⟩
                    · rw [hfd t.index]
                      simp [List.getElem?_set_self hlt]
                    · intro p hp
                      rw [hfd p, List.getElem?_set_ne (Ne.symm hp)]
                    · rw [hflen]
                      simp
              · rw [if_neg hc3] at h
                rcases hen : e.next with - | ni
                · rw [hen] at h
                  simp at h
                · rw [hen] at h
                  simp only [] at h
                  rcases hfx : fixLink (l.contents.set t.index (Entry.free l.next_free)) ni
                      (fun ne => { ne with prev := e.prev }) with - | cs2
                  · rw [hfx] at h
                    simp at h
                  · rw [hfx] at h
                    simp only [] at h
                    rcases hep : e.prev with - | pi
                    · rw [hep] at h
                      simp at h
                    · rw [hep] at h
                      simp only [] at h
                      rcases hfx2 : fixLink cs2 pi
                          (fun pe => { pe with next := some ni }) with - | cs3
                      · rw [hfx2] at h
                        simp at h
                      · rw [hfx2] at h
                        have hfd := fixLink_occData hfx (fun en => ⟨rfl, rfl⟩)
                        have hfd2 := fixLink_occData hfx2 (fun en => ⟨rfl, rfl⟩)
                        have hflen := fixLink_length hfx
                        have hflen2 := fixLink_length hfx2
                        simp only [PRes.ok.injEq, Prod.mk.injEq, Option.some.injEq] at h
                        obtain ⟨rfl, rfl⟩ := h
                        refine ⟨rfl, rfl, by rw [heq]; simp [hg2], ?_, ?_, ?_⟩
                        · rw [hfd2 t.index, hfd t.index]
                          simp [List.getElem?_set_self hlt]
                        · intro p hp
                          rw [hfd2 p, hfd p, List.getElem?_set_ne (Ne.symm hp)]
                        · rw [hflen2, hflen]
                          simp

end IndexList

namespace IndexList

variable {T : Type}

theorem pop_front_none {l : IndexList T} {l' : IndexList T}
    (h : l.pop_front = PRes.ok (none, l')) : l' = l := by
  unfold pop_front at h
  simp only [] at h
  split at h
  · simp only [PRes.ok.injEq, Prod.mk.injEq] at h
    exact h.2.symm
  · rename_i head_index hhd
    split at h
    · simp only [PRes.ok.injEq, Prod.mk.injEq] at h
      exact h.2.symm
    · simp only [PRes.ok.injEq, Prod.mk.injEq] at h
      exact h.2.symm
    · rename_i e heq
      by_cases hc1 : some head_index = l.tail
      · rw [if_pos hc1] at h
        simp at h
      · rw [if_neg hc1] at h
        rcases hen : e.next with - | ni
        · rw [hen] at h
          simp at h
        · rw [hen] at h
          simp only [] at h
          rcases hfx : fixLink (l.contents.set head_index (Entry.free l.next_free)) ni
              (fun ne => { ne with prev := none }) with - | cs2
          · rw [hfx] at h
            simp at h
          · rw [hfx] at h
            simp at h

theorem pop_front_some {l : IndexList T} {v : T} {l' : IndexList T}
    (h : l.pop_front = PRes.ok (some v, l')) :
    ∃ hi : Nat, l.head = some hi ∧
      l'.generation = l.generation + 1 ∧
      l'.next_free = some hi ∧
      (∃ g, occData (l.contents[hi]?) = some (v, g)) ∧
      occData (l'.contents[hi]?) = none ∧
      (∀ p : Nat, p ≠ hi → occData (l'.contents[p]?) = occData (l.contents[p]?)) ∧
      l'.contents.length = l.contents.length := by
  unfold pop_front at h
  simp only [] at h
  split at h
  · simp at h
  · rename_i head_index hhd
    split at h
    · simp at h
    · simp at h
    · rename_i e heq
      have hlt : head_index < l.contents.length := (List.getElem?_eq_some_iff.mp heq).1
      by_cases hc1 : some head_index = l.tail
      · rw [if_pos hc1] at h
        simp only [PRes.ok.injEq, Prod.mk.injEq, Option.some.injEq] at h
        obtain ⟨rfl, rfl⟩ := h
        refine ⟨head_index, hhd, rfl, rfl, ⟨e.generation, by rw [heq]; simp⟩, ?_, ?_, by simp⟩
        · simp [List.getElem?_set_self hlt]
        · intro p hp
          rw [List.getElem?_set_ne (Ne.symm hp)]
      · rw [if_neg hc1] at h
        rcases hen : e.next with - | ni
        · rw [hen] at h
          simp at h
        · rw [hen] at h
          simp only [] at h
          rcases hfx : fixLink (l.contents.set head_index (Entry.free l.next_free)) ni
              (fun ne => { ne with prev := none }) with - | cs2
          · rw [hfx] at h
            simp at h
          · rw [hfx] at h
            have hfd := fixLink_occData hfx (fun en => ⟨rfl, rfl⟩)
            have hflen := fixLink_length hfx
            simp only [PRes.ok.injEq, Prod.mk.injEq, Option.some.injEq] at h
            obtain ⟨rfl, rfl⟩ := h
            refine ⟨head_index, hhd, rfl, rfl, ⟨e.generation, by rw [heq]; simp⟩, ?_, ?_, ?_⟩
            · rw [hfd head_index]
              simp [List.getElem?_set_self hlt]
            · intro p hp
              rw [hfd p, List.getElem?_set_ne (Ne.symm hp)]
            · rw [hflen]
              simp

end IndexList

/-!  ## Operations as a step language, and the generation-bound invariant -/

/-- One mutating call of the public API. -/
inductive Op (T : Type) where
  | pushBack (x : T)
  | pushFront (x : T)
  | insertBefore (t : Index) (x : T)
  | insertAfter (t : Index) (x : T)
  | removeAt (t : Index)
  | popFront
deriving DecidableEq, Repr

/-- Apply one operation, keeping only the updated container. -/
def applyOp (l : IndexList T) : Op T → PRes (IndexList T)
  | Op.pushBack x =>
    match l.push_back x with
    | PRes.panic => PRes.panic
    | PRes.ok (_, l2) => PRes.ok l2
  | Op.pushFront x =>
    match l.push_front x with
    | PRes.panic => PRes.panic
    | PRes.ok (_, l2) => PRes.ok l2
  | Op.insertBefore t x =>
    match l.insert_before t x with
    | PRes.panic => PRes.panic
    | PRes.ok (_, l2) => PRes.ok l2
  | Op.insertAfter t x =>
    match l.insert_after t x with
    | PRes.panic => PRes.panic
    | PRes.ok (_, l2) => PRes.ok l2
  | Op.removeAt t =>
    match l.remove t with
    | PRes.panic => PRes.panic
    | PRes.ok (_, l2) => PRes.ok l2
  | Op.popFront =>
    match l.pop_front with
    | PRes.panic => PRes.panic
    | PRes.ok (_, l2) => PRes.ok l2

/-- Run a sequence of operations from a starting container. -/
def runOps (l : IndexList T) : List (Op T) → PRes (IndexList T)
  | [] => PRes.ok l
  | o :: os =>
    match applyOp l o with
    | PRes.panic => PRes.panic
    | PRes.ok l2 => runOps l2 os

/-- Every `Occupied` slot's stamp is at most the container's generation
counter; holds for the empty container and is preserved by every
operation. -/
def genBound (l : IndexList T) : Bool :=
  l.contents.all fun en =>
    match en with
    | Entry.occupied oe => decide (oe.generation ≤ l.generation)
    | Entry.free _ => true

namespace IndexList

variable {T : Type}

theorem get_some_iff {l : IndexList T} {i : Index} {v : T} :
    l.get i = some v ↔ ∃ e, l.contents[i.index]? = some (Entry.occupied e) ∧
      e.generation = i.generation ∧ e.item = v := by
  constructor
  · intro h
    unfold get at h
    split at h
    · rename_i e heq
      split at h
      · rename_i hg
        cases h
        exact ⟨e, heq, hg, rfl⟩
      · cases h
    · cases h
  · rintro ⟨e, heq, hg, hv⟩
    unfold get
    rw [heq]
    simp [hg, hv]

end IndexList

theorem genBound_spec {T : Type} {l : IndexList T} (h : genBound l = true)
    {p : Nat} {v : T} {g : Nat}
    (hp : occData (l.contents[p]?) = some (v, g)) : g ≤ l.generation := by
  rcases hc : l.contents[p]? with - | en
  · rw [hc] at hp
    simp at hp
  · rcases en with nf | e
    · rw [hc] at hp
      simp at hp
    · rw [hc] at hp
      simp at hp
      have hmem : Entry.occupied e ∈ l.contents :=
        List.mem_iff_getElem?.mpr ⟨p, hc⟩
      have := (List.all_eq_true.mp h) _ hmem
      simp at this
      rw [hp.2] at this
      exact this

theorem genBound_iff {T : Type} {l : IndexList T} :
    genBound l = true ↔
      ∀ (p : Nat) (v : T) (g : Nat),
        occData (l.contents[p]?) = some (v, g) → g ≤ l.generation := by
  constructor
  · intro h p v g hp
    exact genBound_spec h hp
  · intro h
    unfold genBound
    rw [List.all_eq_true]
    intro en hmem
    rcases en with nf | e
    · simp
    · simp
      obtain ⟨p, hp⟩ := List.mem_iff_getElem?.mp hmem
      exact h p e.item e.generation (by rw [hp]; simp)

theorem genBound_empty {T : Type} : genBound (IndexList.empty T) = true := rfl

namespace IndexList

variable {T : Type}

theorem get_after_push_back {l : IndexList T} {i : Index} {v x : T} {j : Index}
    {l2 : IndexList T} (hv : l.get i = some v)
    (h : l.push_back x = PRes.ok (j, l2)) : l2.get i = some v := by
  have h0 := occData_of_get_some hv
  obtain ⟨-, -, ho, -, hfr, -⟩ := push_back_ok h
  by_cases hij : i.index = j.index
  · rw [hij] at h0
    rw [h0] at ho
    simp at ho
  · apply get_eq_some_of_occData
    rw [hfr i.index hij, h0]

theorem get_after_push_front {l : IndexList T} {i : Index} {v x : T} {j : Index}
    {l2 : IndexList T} (hv : l.get i = some v)
    (h : l.push_front x = PRes.ok (j, l2)) : l2.get i = some v := by
  have h0 := occData_of_get_some hv
  obtain ⟨-, -, ho, -, hfr, -⟩ := push_front_ok h
  by_cases hij : i.index = j.index
  · rw [hij] at h0
    rw [h0] at ho
    simp at ho
  · apply get_eq_some_of_occData
    rw [hfr i.index hij, h0]

theorem get_after_insert_before {l : IndexList T} {i : Index} {v : T} {t : Index}
    {x : T} {r : Option (Index)} {l2 : IndexList T} (hv : l.get i = some v)
    (h : l.insert_before t x = PRes.ok (r, l2)) : l2.get i = some v := by
  rcases r with - | j
  · rw [insert_before_none h]
    exact hv
  · have h0 := occData_of_get_some hv
    obtain ⟨-, -, ho, -, hfr, -⟩ := insert_before_some h
    by_cases hij : i.index = j.index
    · rw [hij] at h0
      rw [h0] at ho
      simp at ho
    · apply get_eq_some_of_occData
      rw [hfr i.index hij, h0]

theorem get_after_insert_after {l : IndexList T} {i : Index} {v : T} {t : Index}
    {x : T} {r : Option (Index)} {l2 : IndexList T} (hv : l.get i = some v)
    (h : l.insert_after t x = PRes.ok (r, l2)) : l2.get i = some v := by
  rcases r with - | j
  · rw [insert_after_none h]
    exact hv
  · have h0 := occData_of_get_some hv
    obtain ⟨-, -, ho, -, hfr, -⟩ := insert_after_some h
    by_cases hij : i.index = j.index
    · rw [hij] at h0
      rw [h0] at ho
      simp at ho
    · apply get_eq_some_of_occData
      rw [hfr i.index hij, h0]

end IndexList

open IndexList in
theorem genBound_applyOp {T : Type} {l : IndexList T} {o : Op T} {l2 : IndexList T}
    (hb : genBound l = true) (h : applyOp l o = PRes.ok l2) : genBound l2 = true := by
  rw [genBound_iff] at hb
  rw [genBound_iff]
  cases o with
  | pushBack x =>
    unfold applyOp at h
    simp only [] at h
    rcases hpb : l.push_back x with - | ⟨j, l3⟩
    · rw [hpb] at h
      simp at h
    · rw [hpb] at h
      simp only [PRes.ok.injEq] at h
      subst h
      obtain ⟨hgen, -, -, hocc, hfr, -⟩ := push_back_ok hpb
      intro p v g hp
      rw [hgen]
      by_cases hpj : p = j.index
      · rw [hpj, hocc] at hp
        simp at hp
        rw [← hp.2]
      · rw [hfr p hpj] at hp
        exact hb p v g hp
  | pushFront x =>
    unfold applyOp at h
    simp only [] at h
    rcases hpb : l.push_front x with - | ⟨j, l3⟩
    · rw [hpb] at h
      simp at h
    · rw [hpb] at h
      simp only [PRes.ok.injEq] at h
      subst h
      obtain ⟨hgen, -, -, hocc, hfr, -⟩ := push_front_ok hpb
      intro p v g hp
      rw [hgen]
      by_cases hpj : p = j.index
      · rw [hpj, hocc] at hp
        simp at hp
        rw [← hp.2]
      · rw [hfr p hpj] at hp
        exact hb p v g hp
  | insertBefore t x =>
    unfold applyOp at h
    simp only [] at h
    rcases hib : l.insert_before t x with - | ⟨r, l3⟩
    · rw [hib] at h
      simp at h
    · rw [hib] at h
      simp only [PRes.ok.injEq] at h
      subst h
      rcases r with - | j
      · rw [insert_before_none hib]
        exact hb
      · obtain ⟨hgen, -, -, hocc, hfr, -⟩ := insert_before_some hib
        intro p v g hp
        rw [hgen]
        by_cases hpj : p = j.index
        · rw [hpj, hocc] at hp
          simp at hp
          rw [← hp.2]
        · rw [hfr p hpj] at hp
          exact hb p v g hp
  | insertAfter t x =>
    unfold applyOp at h
    simp only [] at h
    rcases hib : l.insert_after t x with - | ⟨r, l3⟩
    · rw [hib] at h
      simp at h
    · rw [hib] at h
      simp only [PRes.ok.injEq] at h
      subst h
      rcases r with - | j
      · rw [insert_after_none hib]
        exact hb
      · obtain ⟨hgen, -, -, hocc, hfr, -⟩ := insert_after_some hib
        intro p v g hp
        rw [hgen]
        by_cases hpj : p = j.index
        · rw [hpj, hocc] at hp
          simp at hp
          rw [← hp.2]
        · rw [hfr p hpj] at hp
          exact hb p v g hp
  | removeAt t =>
    unfold applyOp at h
    simp only [] at h
    rcases hr : l.remove t with - | ⟨r, l3⟩
    · rw [hr] at h
      simp at h
    · rw [hr] at h
      simp only [PRes.ok.injEq] at h
      subst h
      rcases r with - | w
      · rw [remove_none hr]
        exact hb
      · obtain ⟨hgen, -, -, hafter, hfr, -⟩ := remove_some hr
        intro p v g hp
        rw [hgen]
        by_cases hpt : p = t.index
        · rw [hpt, hafter] at hp
          simp at hp
        · rw [hfr p hpt] at hp
          exact Nat.le_succ_of_le (hb p v g hp)
  | popFront =>
    unfold applyOp at h
    simp only [] at h
    rcases hr : l.pop_front with - | ⟨r, l3⟩
    · rw [hr] at h
      simp at h
    · rw [hr] at h
      simp only [PRes.ok.injEq] at h
      subst h
      rcases r with - | w
      · rw [pop_front_none hr]
        exact hb
      · obtain ⟨hi, hhd, hgen, -, -, hafter, hfr, -⟩ := pop_front_some hr
        intro p v g hp
        rw [hgen]
        by_cases hpt : p = hi
        · rw [hpt, hafter] at hp
          simp at hp
        · rw [hfr p hpt] at hp
          exact Nat.le_succ_of_le (hb p v g hp)

/-- Whether applying `o` to `l` removes the live element held in slot `p`:
only a successful `remove` aimed at `p`, or a successful `pop_front` when
the head slot is `p`, do so. -/
def removesAt (l : IndexList T) (o : Op T) (p : Nat) : Bool :=
  match o with
  | Op.removeAt t =>
    match l.remove t with
    | PRes.ok (some _, _) => decide (t.index = p)
    | _ => false
  | Op.popFront =>
    match l.pop_front with
    | PRes.ok (some _, _) => decide (l.head = some p)
    | _ => false
  | _ => false

/-- No operation of the run removes the element at `i`; evaluated along the
states the run goes through. -/
def noRemove (l : IndexList T) (i : Index) : List (Op T) → Bool
  | [] => true
  | o :: os =>
    !(removesAt l o i.index) &&
      (match applyOp l o with
       | PRes.ok l2 => noRemove l2 i os
       | PRes.panic => true)

open IndexList in
theorem step_preserves_get {T : Type} {l : IndexList T} {i : Index} {v : T}
    {o : Op T} {l2 : IndexList T} (hv : l.get i = some v)
    (h : applyOp l o = PRes.ok l2)
    (hnr : removesAt l o i.index = false) : l2.get i = some v := by
  cases o with
  | pushBack x =>
    unfold applyOp at h
    simp only [] at h
    rcases hpb : l.push_back x with - | ⟨j, l3⟩
    · rw [hpb] at h
      simp at h
    · rw [hpb] at h
      simp only [PRes.ok.injEq] at h
      subst h
      exact get_after_push_back hv hpb
  | pushFront x =>
    unfold applyOp at h
    simp only [] at h
    rcases hpb : l.push_front x with - | ⟨j, l3⟩
    · rw [hpb] at h
      simp at h
    · rw [hpb] at h
      simp only [PRes.ok.injEq] at h
      subst h
      exact get_after_push_front hv hpb
  | insertBefore t x =>
    unfold applyOp at h
    simp only [] at h
    rcases hib : l.insert_before t x with - | ⟨r, l3⟩
    · rw [hib] at h
      simp at h
    · rw [hib] at h
      simp only [PRes.ok.injEq] at h
      subst h
      exact get_after_insert_before hv hib
  | insertAfter t x =>
    unfold applyOp at h
    simp only [] at h
    rcases hib : l.insert_after t x with - | ⟨r, l3⟩
    · rw [hib] at h
      simp at h
    · rw [hib] at h
      simp only [PRes.ok.injEq] at h
      subst h
      exact get_after_insert_after hv hib
  | removeAt t =>
    unfold applyOp at h
    simp only [] at h
    unfold removesAt at hnr
    simp only [] at hnr
    rcases hr : l.remove t with - | ⟨r, l3⟩
    · rw [hr] at h
      simp at h
    · rw [hr] at h
      simp only [PRes.ok.injEq] at h
      subst h
      rcases r with - | w
      · rw [remove_none hr]
        exact hv
      · rw [hr] at hnr
        simp only [] at hnr
        have hti : t.index ≠ i.index := by
          intro hcon
          rw [hcon] at hnr
          simp at hnr
        obtain ⟨-, -, -, -, hfr, -⟩ := remove_some hr
        apply get_eq_some_of_occData
        rw [hfr i.index (Ne.symm hti)]
        exact occData_of_get_some hv
  | popFront =>
    unfold applyOp at h
    simp only [] at h
    unfold removesAt at hnr
    simp only [] at hnr
    rcases hr : l.pop_front with - | ⟨r, l3⟩
    · rw [hr] at h
      simp at h
    · rw [hr] at h
      simp only [PRes.ok.injEq] at h
      subst h
      rcases r with - | w
      · rw [pop_front_none hr]
        exact hv
      · rw [hr] at hnr
        simp only [] at hnr
        obtain ⟨hi, hhd, -, -, -, -, hfr, -⟩ := pop_front_some hr
        have hne : hi ≠ i.index := by
          intro hcon
          rw [← hcon] at hnr
          rw [hhd] at hnr
          simp at hnr
        obtain h0 := occData_of_get_some hv
        apply get_eq_some_of_occData
        rw [hfr i.index (Ne.symm hne)]
        exact h0

/-!  ## The concrete shape of containers built by pure push sequences -/

/-- The slot table built by pushing `l` on the back, starting at absolute
position `i`: element `k` of `l` sits at position `i + k`, stamped
generation 0, `next` pointing one slot right (the last entry's `next` being
`tn`) and `prev` one slot left (position 0 having none). -/
def chainC (i : Nat) (tn : Option Nat) : List T → List (Entry T)
  | [] => []
  | x :: rest =>
    Entry.occupied ⟨x, 0, if rest.isEmpty then tn else some (i + 1),
      if i = 0 then none else some (i - 1)⟩ :: chainC (i + 1) tn rest

/-- The mirrored table built by pushing `l` on the front: element `k` sits
at position `i + k`, `next` pointing one slot left (position 0 having
none) and `prev` one slot right (the last entry's `prev` being `tp`). -/
def chainF (i : Nat) (tp : Option Nat) : List T → List (Entry T)
  | [] => []
  | x :: rest =>
    Entry.occupied ⟨x, 0, if i = 0 then none else some (i - 1),
      if rest.isEmpty then tp else some (i + 1)⟩ :: chainF (i + 1) tp rest

/-- State after `push_back`-ing the elements of `xs` in order onto the
empty container. -/
def backList : List T → IndexList T
  | [] => IndexList.empty T
  | x :: rest =>
    { contents := chainC 0 none (x :: rest), generation := 0, next_free := none,
      head := some 0, tail := some ((x :: rest).length - 1) }

/-- State after `push_front`-ing the elements of `xs` in order onto the
empty container. -/
def frontList : List T → IndexList T
  | [] => IndexList.empty T
  | x :: rest =>
    { contents := chainF 0 none (x :: rest), generation := 0, next_free := none,
      head := some ((x :: rest).length - 1), tail := some 0 }

theorem chainC_length {T : Type} (i : Nat) (tn : Option Nat) (l : List T) :
    (chainC i tn l).length = l.length := by
  induction l generalizing i with
  | nil => rfl
  | cons x rest ih =>
    simp [chainC, ih]

theorem chainF_length {T : Type} (i : Nat) (tp : Option Nat) (l : List T) :
    (chainF i tp l).length = l.length := by
  induction l generalizing i with
  | nil => rfl
  | cons x rest ih =>
    simp [chainF, ih]

theorem chainC_getElem {T : Type} (i : Nat) (tn : Option Nat) {l : List T}
    {j : Nat} {a : T} (hj : l[j]? = some a) :
    (chainC i tn l)[j]? = some (Entry.occupied ⟨a, 0,
      if j + 1 = l.length then tn else some (i + j + 1),
      if i + j = 0 then none else some (i + j - 1)⟩) := by
  induction l generalizing i j with
  | nil => simp at hj
  | cons x rest ih =>
    rcases j with - | k
    · simp at hj
      subst hj
      rcases rest with - | ⟨r, rest2⟩
      · simp [chainC]
      · simp [chainC]
    · simp at hj
      have := @ih (i + 1) _ hj
      simp only [chainC]
      rw [List.getElem?_cons_succ, this]
      have e1 : (i + 1) + k = i + (k + 1) := by omega
      rw [e1]
      simp [List.length_cons]

theorem chainF_getElem {T : Type} (i : Nat) (tp : Option Nat) {l : List T}
    {j : Nat} {a : T} (hj : l[j]? = some a) :
    (chainF i tp l)[j]? = some (Entry.occupied ⟨a, 0,
      if i + j = 0 then none else some (i + j - 1),
      if j + 1 = l.length then tp else some (i + j + 1)⟩) := by
  induction l generalizing i j with
  | nil => simp at hj
  | cons x rest ih =>
    rcases j with - | k
    · simp at hj
      subst hj
      rcases rest with - | ⟨r, rest2⟩
      · simp [chainF]
      · simp [chainF]
    · simp at hj
      have := @ih (i + 1) _ hj
      simp only [chainF]
      rw [List.getElem?_cons_succ, this]
      have e1 : (i + 1) + k = i + (k + 1) := by omega
      rw [e1]
      simp [List.length_cons]
theorem isEmpty_append_singleton {T : Type} (l : List T) (x : T) :
    (l ++ [x]).isEmpty = false := by
  cases l <;> rfl

theorem chainC_cons {T : Type} (k : Nat) (tn : Option Nat) (a : T) (ls : List T) :
    chainC k tn (a :: ls) =
      Entry.occupied ⟨a, 0, if ls.isEmpty then tn else some (k + 1),
        if k = 0 then none else some (k - 1)⟩ :: chainC (k + 1) tn ls := rfl

theorem chainF_cons {T : Type} (k : Nat) (tp : Option Nat) (a : T) (ls : List T) :
    chainF k tp (a :: ls) =
      Entry.occupied ⟨a, 0, if k = 0 then none else some (k - 1),
        if ls.isEmpty then tp else some (k + 1)⟩ :: chainF (k + 1) tp ls := rfl

theorem chainC_snoc_set {T : Type} (i : Nat) (l : List T) (x : T) (n : Nat)
    (hn : l.length = n + 1) {e : OccupiedEntry T}
    (he : (chainC i none l)[n]? = some (Entry.occupied e)) :
    chainC i none (l ++ [x]) =
      (chainC i none l ++ [Entry.occupied ⟨x, 0, none, some (i + n)⟩]).set n
        (Entry.occupied { e with next := some (i + n + 1) }) := by
  induction l generalizing i n with
  | nil => simp at hn
  | cons y rest ih =>
    rcases rest with - | ⟨r, rest2⟩
    · have hn0 : n = 0 := by simpa using hn
      subst hn0
      simp only [chainC, List.isEmpty_nil, if_pos rfl] at he
      simp only [List.getElem?_cons_zero, Option.some.injEq, Entry.occupied.injEq] at he
      subst he
      simp [chainC, isEmpty_append_singleton]
    · rcases n with - | m
      · simp at hn
      · have hn1 : (r :: rest2).length = m + 1 := by
          simpa using hn
        have he2 : (chainC (i + 1) none (r :: rest2))[m]? = some (Entry.occupied e) := by
          rw [chainC_cons] at he
          rwa [List.getElem?_cons_succ] at he
        have hIH := ih (i + 1) m hn1 he2
        have hb1 : (i + 1) + m = i + (m + 1) := by omega
        rw [hb1] at hIH
        have hcons : ((y :: r :: rest2) ++ [x] : List T) = y :: ((r :: rest2) ++ [x]) := rfl
        rw [hcons, chainC_cons i none y ((r :: rest2) ++ [x]), hIH,
          chainC_cons i none y (r :: rest2)]
        simp [isEmpty_append_singleton]

theorem chainF_snoc_set {T : Type} (i : Nat) (l : List T) (x : T) (n : Nat)
    (hn : l.length = n + 1) {e : OccupiedEntry T}
    (he : (chainF i none l)[n]? = some (Entry.occupied e)) :
    chainF i none (l ++ [x]) =
      (chainF i none l ++ [Entry.occupied ⟨x, 0, some (i + n), none⟩]).set n
        (Entry.occupied { e with prev := some (i + n + 1) }) := by
  induction l generalizing i n with
  | nil => simp at hn
  | cons y rest ih =>
    rcases rest with - | ⟨r, rest2⟩
    · have hn0 : n = 0 := by simpa using hn
      subst hn0
      simp only [chainF, List.isEmpty_nil, if_pos rfl] at he
      simp only [List.getElem?_cons_zero, Option.some.injEq, Entry.occupied.injEq] at he
      subst he
      simp [chainF, isEmpty_append_singleton]
    · rcases n with - | m
      · simp at hn
      · have hn1 : (r :: rest2).length = m + 1 := by
          simpa using hn
        have he2 : (chainF (i + 1) none (r :: rest2))[m]? = some (Entry.occupied e) := by
          rw [chainF_cons] at he
          rwa [List.getElem?_cons_succ] at he
        have hIH := ih (i + 1) m hn1 he2
        have hb1 : (i + 1) + m = i + (m + 1) := by omega
        rw [hb1] at hIH
        have hcons : ((y :: r :: rest2) ++ [x] : List T) = y :: ((r :: rest2) ++ [x]) := rfl
        rw [hcons, chainF_cons i none y ((r :: rest2) ++ [x]), hIH,
          chainF_cons i none y (r :: rest2)]
        simp [isEmpty_append_singleton]
theorem push_back_backList {T : Type} (ys : List T) (x : T) :
    (backList ys).push_back x =
      PRes.ok (⟨ys.length, 0⟩, backList (ys ++ [x])) := by
  rcases ys with - | ⟨y, rest⟩
  · rfl
  · have hlt : rest.length < (y :: rest).length := by simp
    obtain ⟨a, hlast⟩ : ∃ a, (y :: rest)[rest.length]? = some a :=
      ⟨_, List.getElem?_eq_getElem hlt⟩
    have hchain := chainC_getElem 0 none hlast
    obtain ⟨e, he⟩ : ∃ e, (chainC 0 none (y :: rest))[rest.length]? =
        some (Entry.occupied e) := ⟨_, hchain⟩
    have hpos : (chainC 0 none (y :: rest)).length = rest.length + 1 := by
      rw [chainC_length]
      rfl
    unfold IndexList.push_back
    have h1 : (backList (y :: rest)).head = some 0 := rfl
    have h2 : (backList (y :: rest)).tail = some rest.length := rfl
    have h3 : (backList (y :: rest)).contents = chainC 0 none (y :: rest) := rfl
    have h4 : (backList (y :: rest)).next_free = none := rfl
    have h5 : (backList (y :: rest)).generation = 0 := rfl
    rw [h1]
    simp only []
    rw [h2]
    simp only []
    rw [h3, h4, h5]
    have halloc : allocSlot (chainC 0 none (y :: rest)) none
        (Entry.occupied ⟨x, 0, none, some rest.length⟩) =
      PRes.ok ((chainC 0 none (y :: rest)).length,
        chainC 0 none (y :: rest) ++ [Entry.occupied ⟨x, 0, none, some rest.length⟩],
        none) := rfl
    rw [halloc]
    simp only []
    rw [hpos]
    have hfix : fixLink
        (chainC 0 none (y :: rest) ++ [Entry.occupied ⟨x, 0, none, some rest.length⟩])
        rest.length (fun en => { en with next := some (rest.length + 1) }) =
      PRes.ok ((chainC 0 none (y :: rest) ++
          [Entry.occupied ⟨x, 0, none, some rest.length⟩]).set rest.length
        (Entry.occupied { e with next := some (rest.length + 1) })) := by
      unfold fixLink
      rw [List.getElem?_append_left (by rw [hpos]; omega), he]
    rw [hfix]
    simp only []
    have hsnoc := chainC_snoc_set 0 (y :: rest) x rest.length (by simp) he
    simp only [Nat.zero_add] at hsnoc
    have hback : backList ((y :: rest) ++ [x]) =
        { contents := chainC 0 none ((y :: rest) ++ [x]), generation := 0,
          next_free := none, head := some 0,
          tail := some (((y :: rest) ++ [x]).length - 1) } := rfl
    rw [show (y :: rest ++ [x] : List T) = (y :: rest) ++ [x] from rfl, hback, hsnoc]
    simp [List.length_append]
theorem push_front_frontList {T : Type} (ys : List T) (x : T) :
    (frontList ys).push_front x =
      PRes.ok (⟨ys.length, 0⟩, frontList (ys ++ [x])) := by
  rcases ys with - | ⟨y, rest⟩
  · rfl
  · have hlt : rest.length < (y :: rest).length := by simp
    obtain ⟨a, hlast⟩ : ∃ a, (y :: rest)[rest.length]? = some a :=
      ⟨_, List.getElem?_eq_getElem hlt⟩
    have hchain := chainF_getElem 0 none hlast
    obtain ⟨e, he⟩ : ∃ e, (chainF 0 none (y :: rest))[rest.length]? =
        some (Entry.occupied e) := ⟨_, hchain⟩
    have hpos : (chainF 0 none (y :: rest)).length = rest.length + 1 := by
      rw [chainF_length]
      rfl
    unfold IndexList.push_front
    have h1 : (frontList (y :: rest)).head = some rest.length := rfl
    have h3 : (frontList (y :: rest)).contents = chainF 0 none (y :: rest) := rfl
    have h4 : (frontList (y :: rest)).next_free = none := rfl
    have h5 : (frontList (y :: rest)).generation = 0 := rfl
    rw [h1]
    simp only []
    rw [h3, h4, h5]
    have halloc : allocSlot (chainF 0 none (y :: rest)) none
        (Entry.occupied ⟨x, 0, some rest.length, none⟩) =
      PRes.ok ((chainF 0 none (y :: rest)).length,
        chainF 0 none (y :: rest) ++ [Entry.occupied ⟨x, 0, some rest.length, none⟩],
        none) := rfl
    rw [halloc]
    simp only []
    rw [hpos]
    have hfix : fixLink
        (chainF 0 none (y :: rest) ++ [Entry.occupied ⟨x, 0, some rest.length, none⟩])
        rest.length (fun en => { en with prev := some (rest.length + 1) }) =
      PRes.ok ((chainF 0 none (y :: rest) ++
          [Entry.occupied ⟨x, 0, some rest.length, none⟩]).set rest.length
        (Entry.occupied { e with prev := some (rest.length + 1) })) := by
      unfold fixLink
      rw [List.getElem?_append_left (by rw [hpos]; omega), he]
    rw [hfix]
    simp only []
    have hsnoc := chainF_snoc_set 0 (y :: rest) x rest.length (by simp) he
    simp only [Nat.zero_add] at hsnoc
    have hback : frontList ((y :: rest) ++ [x]) =
        { contents := chainF 0 none ((y :: rest) ++ [x]), generation := 0,
          next_free := none, head := some (((y :: rest) ++ [x]).length - 1),
          tail := some 0 } := rfl
    rw [show (y :: rest ++ [x] : List T) = (y :: rest) ++ [x] from rfl, hback, hsnoc]
    simp [List.length_append]
    rfl
theorem iterFrom_none {T : Type} (cs : List (Entry T)) (fuel : Nat) :
    iterFrom cs fuel none = PRes.ok [] := by
  cases fuel <;> rfl

theorem iterFrom_chainC_ok {T : Type} (suf : List T) :
    ∀ (pre : List T) (fuel : Nat), suf ≠ [] → suf.length ≤ fuel →
      iterFrom (chainC 0 none (pre ++ suf)) fuel (some pre.length) = PRes.ok suf := by
  induction suf with
  | nil =>
    intro pre fuel h
    exact absurd rfl h
  | cons s rest ih =>
    intro pre fuel hne hfuel
    rcases fuel with - | f
    · simp at hfuel
    · have hj : (pre ++ s :: rest)[pre.length]? = some s := by
        rw [List.getElem?_append_right (Nat.le_refl _)]
        simp
      have hentry := chainC_getElem 0 none hj
      simp only [iterFrom]
      rw [hentry]
      simp only []
      rcases rest with - | ⟨r, rest2⟩
      · rw [if_pos (by simp)]
        rw [iterFrom_none]
      · rw [if_neg (by simp)]
        simp only [Nat.zero_add]
        have hstep := ih (pre ++ [s]) f (by simp)
          (by simp only [List.length_cons] at hfuel ⊢; omega)
        have h2 : ((pre ++ [s]) ++ (r :: rest2) : List T) = pre ++ (s :: r :: rest2) := by
          simp
        have h3 : (pre ++ [s]).length = pre.length + 1 := by simp
        rw [h2, h3] at hstep
        rw [hstep]
theorem iterFrom_chainF_ok {T : Type} (pre : List T) :
    ∀ (suf : List T) (fuel : Nat), pre ≠ [] → pre.length ≤ fuel →
      iterFrom (chainF 0 none (pre ++ suf)) fuel (some (pre.length - 1)) =
        PRes.ok pre.reverse := by
  induction pre using List.reverseRecOn with
  | nil =>
    intro suf fuel hne hfuel
    exact absurd rfl hne
  | append_singleton l a ihl =>
    intro suf fuel hne hfuel
    rcases fuel with - | f
    · simp [List.length_append] at hfuel
    · have hlen : (l ++ [a]).length - 1 = l.length := by simp
      rw [hlen]
      have hj : ((l ++ [a]) ++ suf)[l.length]? = some a := by
        rw [List.append_assoc, List.getElem?_append_right (Nat.le_refl _)]
        simp
      have hentry := chainF_getElem 0 none hj
      simp only [iterFrom]
      rw [hentry]
      simp only []
      rcases l with - | ⟨y, l2⟩
      · rw [if_pos (by simp)]
        rw [iterFrom_none]
        simp
      · rw [if_neg (by simp)]
        simp only [Nat.zero_add]
        have hstep := ihl ([a] ++ suf) f (by simp)
          (by simp only [List.length_append, List.length_cons] at hfuel ⊢; omega)
        have h2 : ((y :: l2) ++ ([a] ++ suf) : List T) = ((y :: l2) ++ [a]) ++ suf := by
          simp
        rw [h2] at hstep
        rw [hstep]
        simp

/-- Apply `push_back` to each element of a list in order. -/
def pushBackAll (l : IndexList T) : List T → PRes (IndexList T)
  | [] => PRes.ok l
  | x :: rest =>
    match l.push_back x with
    | PRes.panic => PRes.panic
    | PRes.ok (_, l2) => pushBackAll l2 rest

/-- Apply `push_front` to each element of a list in order. -/
def pushFrontAll (l : IndexList T) : List T → PRes (IndexList T)
  | [] => PRes.ok l
  | x :: rest =>
    match l.push_front x with
    | PRes.panic => PRes.panic
    | PRes.ok (_, l2) => pushFrontAll l2 rest

theorem pushBackAll_backList {T : Type} (ys xs : List T) :
    pushBackAll (backList ys) xs = PRes.ok (backList (ys ++ xs)) := by
  induction xs generalizing ys with
  | nil => simp [pushBackAll]
  | cons x rest ih =>
    simp only [pushBackAll]
    rw [push_back_backList]
    simp only []
    rw [ih (ys ++ [x])]
    simp

theorem pushFrontAll_frontList {T : Type} (ys xs : List T) :
    pushFrontAll (frontList ys) xs = PRes.ok (frontList (ys ++ xs)) := by
  induction xs generalizing ys with
  | nil => simp [pushFrontAll]
  | cons x rest ih =>
    simp only [pushFrontAll]
    rw [push_front_frontList]
    simp only []
    rw [ih (ys ++ [x])]
    simp

theorem iterList_backList {T : Type} (xs : List T) :
    (backList xs).iterList = PRes.ok xs := by
  rcases xs with - | ⟨x, rest⟩
  · rfl
  · unfold IndexList.iterList
    have h1 : (backList (x :: rest)).contents = chainC 0 none (x :: rest) := rfl
    have h2 : (backList (x :: rest)).head = some 0 := rfl
    rw [h1, h2, chainC_length]
    have := iterFrom_chainC_ok (x :: rest) [] ((x :: rest).length + 1)
      (by simp) (by simp)
    simpa using this

theorem iterList_frontList {T : Type} (xs : List T) :
    (frontList xs).iterList = PRes.ok xs.reverse := by
  rcases xs with - | ⟨x, rest⟩
  · rfl
  · unfold IndexList.iterList
    have h1 : (frontList (x :: rest)).contents = chainF 0 none (x :: rest) := rfl
    have h2 : (frontList (x :: rest)).head = some ((x :: rest).length - 1) := rfl
    rw [h1, h2, chainF_length]
    have := iterFrom_chainF_ok (x :: rest) [] ((x :: rest).length + 1)
      (by simp) (by simp)
    simpa using this

/-!  ## Derived structural equality (`#[derive(PartialEq)]`) and the
doubly-linked well-formedness check -/

/-- Field-by-field comparison of entries, as the derived `PartialEq` on
`Entry<T>`/`OccupiedEntry<T>` does (lib.rs lines 111-123). -/
def entryEq [DecidableEq T] : Entry T → Entry T → Bool
  | Entry.free a, Entry.free b => decide (a = b)
  | Entry.occupied a, Entry.occupied b =>
    decide (a.item = b.item) && decide (a.generation = b.generation) &&
      decide (a.next = b.next) && decide (a.prev = b.prev)
  | _, _ => false

/-- Element-by-element comparison of slot tables, as `Vec<Entry<T>>`'s
`PartialEq` does. -/
def contentsEq [DecidableEq T] : List (Entry T) → List (Entry T) → Bool
  | [], [] => true
  | a :: as2, b :: bs => entryEq a b && contentsEq as2 bs
  | _, _ => false

/-- The derived `PartialEq` on `IndexList<T>` (lib.rs line 102): all five
fields compared structurally. -/
def indexListEq [DecidableEq T] (a b : IndexList T) : Bool :=
  contentsEq a.contents b.contents && decide (a.generation = b.generation) &&
    decide (a.next_free = b.next_free) && decide (a.head = b.head) &&
    decide (a.tail = b.tail)

theorem entryEq_iff {T : Type} [DecidableEq T] (a b : Entry T) :
    entryEq a b = true ↔ a = b := by
  cases a with
  | free na =>
    cases b with
    | free nb => simp [entryEq]
    | occupied eb => simp [entryEq]
  | occupied ea =>
    cases b with
    | free nb => simp [entryEq]
    | occupied eb =>
      cases ea
      cases eb
      simp [entryEq, Entry.occupied.injEq, OccupiedEntry.mk.injEq, and_assoc]

theorem contentsEq_iff {T : Type} [DecidableEq T] (as2 bs : List (Entry T)) :
    contentsEq as2 bs = true ↔ as2 = bs := by
  induction as2 generalizing bs with
  | nil => cases bs <;> simp [contentsEq]
  | cons a as2 ih =>
    cases bs with
    | nil => simp [contentsEq]
    | cons b bs => simp [contentsEq, entryEq_iff, ih]

/-- The two local link conditions that every reachable container satisfies:
an `Occupied` slot's `next`, when present, names an `Occupied` slot whose
`prev` points back (else this slot is the tail), and symmetrically for
`prev` against the head. -/
def linkedOk (l : IndexList T) : Bool :=
  (List.range l.contents.length).all fun p =>
    match l.contents[p]? with
    | some (Entry.occupied e) =>
      (match e.next with
       | some q =>
         match l.contents[q]? with
         | some (Entry.occupied e2) => decide (e2.prev = some p)
         | _ => false
       | none => decide (l.tail = some p)) &&
      (match e.prev with
       | some q =>
         match l.contents[q]? with
         | some (Entry.occupied e2) => decide (e2.next = some p)
         | _ => false
       | none => decide (l.head = some p))
    | _ => true

theorem linkedOk_spec {T : Type} {l : IndexList T} (h : linkedOk l = true)
    {p : Nat} {e : OccupiedEntry T}
    (hp : l.contents[p]? = some (Entry.occupied e)) :
    (∀ q, e.next = some q →
       ∃ e2, l.contents[q]? = some (Entry.occupied e2) ∧ e2.prev = some p) ∧
    (e.next = none → l.tail = some p) ∧
    (∀ q, e.prev = some q →
       ∃ e2, l.contents[q]? = some (Entry.occupied e2) ∧ e2.next = some p) ∧
    (e.prev = none → l.head = some p) := by
  have hlt : p < l.contents.length := (List.getElem?_eq_some_iff.mp hp).1
  have hmem : p ∈ List.range l.contents.length := List.mem_range.mpr hlt
  have hb := (List.all_eq_true.mp h) p hmem
  rw [hp] at hb
  simp only [] at hb
  simp only [Bool.and_eq_true] at hb
  obtain ⟨hb1, hb2⟩ := hb
  refine ⟨?_, ?_, ?_, ?_⟩
  · intro q hq
    rw [hq] at hb1
    simp only [] at hb1
    rcases hc : l.contents[q]? with - | en
    · rw [hc] at hb1
      simp at hb1
    · rcases en with nf | e2
      · rw [hc] at hb1
        simp at hb1
      · rw [hc] at hb1
        simp at hb1
        exact ⟨e2, rfl, hb1⟩
  · intro hq
    rw [hq] at hb1
    simpa using hb1
  · intro q hq
    rw [hq] at hb2
    simp only [] at hb2
    rcases hc : l.contents[q]? with - | en
    · rw [hc] at hb2
      simp at hb2
    · rcases en with nf | e2
      · rw [hc] at hb2
        simp at hb2
      · rw [hc] at hb2
        simp at hb2
        exact ⟨e2, rfl, hb2⟩
  · intro hq
    rw [hq] at hb2
    simpa using hb2

/-- Stale or dangling target check used by `insert_before`/`insert_after`:
the slot either holds a `Free` entry or an `Occupied` entry of a different
generation. -/
def staleOrFree (l : IndexList T) (i : Index) : Bool :=
  match l.contents[i.index]? with
  | some (Entry.free _) => true
  | some (Entry.occupied e) => decide (e.generation ≠ i.generation)
  | none => false

/-!  ## Concrete sample containers (reachable states, checked against the
crate's unit tests) -/

/-- State after `push_back 5; push_back 10; push_back 15` from empty. -/
def sampleBack3 : IndexList Nat :=
  ⟨[Entry.occupied ⟨5, 0, some 1, none⟩, Entry.occupied ⟨10, 0, some 2, some 0⟩,
    Entry.occupied ⟨15, 0, none, some 1⟩], 0, none, some 0, some 2⟩

/-- State of `sampleBack3` after `remove` of the middle handle `(1, 0)`. -/
def sampleRemoved : IndexList Nat :=
  ⟨[Entry.occupied ⟨5, 0, some 2, none⟩, Entry.free none,
    Entry.occupied ⟨15, 0, none, some 0⟩], 1, some 1, some 0, some 2⟩

/-- State of `sampleRemoved` after `push_back 20`, which reuses slot 1. -/
def sampleRealloc : IndexList Nat :=
  ⟨[Entry.occupied ⟨5, 0, some 2, none⟩, Entry.occupied ⟨20, 1, none, some 2⟩,
    Entry.occupied ⟨15, 0, some 1, some 0⟩], 1, none, some 0, some 1⟩

/-- State of `sampleBack3` after the run `remove (2,0); push_back 20; pop_front`. -/
def sampleRun : IndexList Nat :=
  ⟨[Entry.free none, Entry.occupied ⟨10, 0, some 2, none⟩,
    Entry.occupied ⟨20, 1, none, some 1⟩], 2, some 0, some 1, some 2⟩

/-- State after `push_back 5; push_back 10` from empty. -/
def sampleTwo : IndexList Nat :=
  ⟨[Entry.occupied ⟨5, 0, some 1, none⟩, Entry.occupied ⟨10, 0, none, some 0⟩],
    0, none, some 0, some 1⟩

/-- State after `push_back 5` from empty. -/
def sampleOne : IndexList Nat :=
  ⟨[Entry.occupied ⟨5, 0, none, none⟩], 0, none, some 0, some 0⟩

/-- State after `push_back 5; push_back 10; remove (1,0)` from empty: same single live
element `5` as `sampleOne`, different slot table and counters. -/
def sampleOneFreed : IndexList Nat :=
  ⟨[Entry.occupied ⟨5, 0, none, none⟩, Entry.free none], 1, some 1, some 0, some 0⟩

/-!  ## The claims -/

/-- Claim C1 (code-bug evidence): on the out-of-range handle `(0, 0)` against
the empty container, `get`, `remove`, `next_index` and `prev_index` all
answer through the absent channel (`None`), but `get_mut` aborts on its
unchecked `self.contents[index.index]` indexing — contradicting both the
spec's error-handling rule and `get_mut`'s own documentation. -/
theorem c1_get_mut_aborts_on_out_of_range_handle :
    IndexList.get_mut (IndexList.empty Nat) ⟨0, 0⟩ = PRes.panic ∧
    IndexList.get (IndexList.empty Nat) ⟨0, 0⟩ = none ∧
    IndexList.remove (IndexList.empty Nat) ⟨0, 0⟩ =
      PRes.ok (none, IndexList.empty Nat) ∧
    IndexList.next_index (IndexList.empty Nat) ⟨0, 0⟩ = none ∧
    IndexList.prev_index (IndexList.empty Nat) ⟨0, 0⟩ = none :=
  ⟨rfl, rfl, rfl, rfl, rfl⟩

/-- Claim C8: if the target handle is stale (wrong generation) or names a
`Free` slot, `insert_before` and `insert_after` return `None` and leave the
container untouched. -/
theorem c8_insert_rejects_dead_target {T : Type} (l : IndexList T) (i : Index)
    (x : T) (h : staleOrFree l i = true) :
    l.insert_before i x = PRes.ok (none, l) ∧
    l.insert_after i x = PRes.ok (none, l) := by
  unfold staleOrFree at h
  constructor
  · unfold IndexList.insert_before
    rcases hc : l.contents[i.index]? with - | en
    · simp [hc] at h
    · rcases en with nf | e
      · rfl
      · simp [hc] at h
        simp only []
        rw [if_pos (Ne.symm h)]
  · unfold IndexList.insert_after
    rcases hc : l.contents[i.index]? with - | en
    · simp [hc] at h
    · rcases en with nf | e
      · rfl
      · simp [hc] at h
        simp only []
        rw [if_pos (Ne.symm h)]

/-- Witness for claim C8 at a concrete input: inserting against the freed slot
of `sampleOneFreed` is rejected without mutation. -/
theorem c8_witness :
    staleOrFree sampleOneFreed ⟨1, 0⟩ = true ∧
    (sampleOneFreed.insert_before ⟨1, 0⟩ 7 = PRes.ok (none, sampleOneFreed) ∧
     sampleOneFreed.insert_after ⟨1, 0⟩ 7 = PRes.ok (none, sampleOneFreed)) :=
  ⟨by decide, c8_insert_rejects_dead_target sampleOneFreed ⟨1, 0⟩ 7 (by decide)⟩

/-- Claim C6: a successful removal leaves its slot at the head of the free
list, and the next successful insertion of any kind reuses exactly that
slot position without growing the table. -/
theorem c6_freed_slot_reused_first {T : Type} {l : IndexList T} {t : Index}
    {v : T} {l2 : IndexList T} (h : l.remove t = PRes.ok (some v, l2)) :
    l2.next_free = some t.index ∧
    (∀ (x : T) (j : Index) (l3 : IndexList T), l2.push_back x = PRes.ok (j, l3) →
       j.index = t.index ∧ l3.contents.length = l2.contents.length) ∧
    (∀ (x : T) (j : Index) (l3 : IndexList T), l2.push_front x = PRes.ok (j, l3) →
       j.index = t.index ∧ l3.contents.length = l2.contents.length) ∧
    (∀ (u : Index) (x : T) (j : Index) (l3 : IndexList T),
       l2.insert_before u x = PRes.ok (some j, l3) →
       j.index = t.index ∧ l3.contents.length = l2.contents.length) ∧
    (∀ (u : Index) (x : T) (j : Index) (l3 : IndexList T),
       l2.insert_after u x = PRes.ok (some j, l3) →
       j.index = t.index ∧ l3.contents.length = l2.contents.length) := by
  obtain ⟨-, hnf, -, -, -, -⟩ := IndexList.remove_some h
  refine ⟨hnf, ?_, ?_, ?_, ?_⟩
  · intro x j l3 hp
    obtain ⟨-, -, -, -, -, hq⟩ := IndexList.push_back_ok hp
    exact hq t.index hnf
  · intro x j l3 hp
    obtain ⟨-, -, -, -, -, hq⟩ := IndexList.push_front_ok hp
    exact hq t.index hnf
  · intro u x j l3 hp
    obtain ⟨-, -, -, -, -, hq⟩ := IndexList.insert_before_some hp
    exact hq t.index hnf
  · intro u x j l3 hp
    obtain ⟨-, -, -, -, -, hq⟩ := IndexList.insert_after_some hp
    exact hq t.index hnf

/-- Witness for claim C6: removing the middle element of `sampleBack3` frees
slot 1, and the following `push_back 20` lands exactly there. -/
theorem c6_witness :
    sampleRemoved.next_free = some (⟨1, 0⟩ : Index).index ∧
    ((⟨1, 1⟩ : Index).index = (⟨1, 0⟩ : Index).index ∧
     sampleRealloc.contents.length = sampleRemoved.contents.length) :=
  ⟨(c6_freed_slot_reused_first
      (show sampleBack3.remove ⟨1, 0⟩ = PRes.ok (some 10, sampleRemoved) from
        by decide)).1,
   (c6_freed_slot_reused_first
      (show sampleBack3.remove ⟨1, 0⟩ = PRes.ok (some 10, sampleRemoved) from
        by decide)).2.1 20 ⟨1, 1⟩ sampleRealloc (by decide)⟩

/-- Claim C9: the derived equality is structural — two containers compare
equal exactly when all five fields (slot table entry by entry, generation,
`next_free`, head, tail) coincide; and two containers holding the same live
elements in the same order can still compare unequal. -/
theorem c9_equality_is_structural :
    (∀ (T : Type) (inst : DecidableEq T) (A B : IndexList T),
       @indexListEq T inst A B = true ↔
         (A.contents = B.contents ∧ A.generation = B.generation ∧
          A.next_free = B.next_free ∧ A.head = B.head ∧ A.tail = B.tail)) ∧
    sampleOne.iterList = PRes.ok [5] ∧
    sampleOneFreed.iterList = PRes.ok [5] ∧
    indexListEq sampleOne sampleOneFreed = false := by
  refine ⟨?_, rfl, rfl, rfl⟩
  intro T inst A B
  simp [indexListEq, contentsEq_iff, and_assoc]

open IndexList in
/-- Claim C3: every successful removal (`remove` of a valid handle, and
`pop_front` of a non-empty list) increments the generation counter by
exactly 1; no operation decreases it; each of the four insertions stamps
its new `Occupied` slot with the container's current generation, and every
operation — `push_back`, `push_front`, `insert_before`, `insert_after`,
`remove` and `pop_front`, on its success path as well as its rejected
no-op path — leaves the item and generation stamp of every slot other
than the one it writes unchanged. So an `Occupied` slot's stamp is always
the counter value at the moment the slot was last written, over every
operation sequence. -/
theorem c3_generation_discipline {T : Type} :
    (∀ (l : IndexList T) (t : Index) (v : T) (l2 : IndexList T),
       l.remove t = PRes.ok (some v, l2) → l2.generation = l.generation + 1) ∧
    (∀ (l : IndexList T) (v : T) (l2 : IndexList T),
       l.pop_front = PRes.ok (some v, l2) → l2.generation = l.generation + 1) ∧
    (∀ (l : IndexList T) (o : Op T) (l2 : IndexList T),
       applyOp l o = PRes.ok l2 → l.generation ≤ l2.generation) ∧
    (∀ (l : IndexList T) (x : T) (j : Index) (l2 : IndexList T),
       l.push_back x = PRes.ok (j, l2) →
         l2.generation = l.generation ∧ j.generation = l.generation ∧
         occData (l2.contents[j.index]?) = some (x, l.generation)) ∧
    (∀ (l : IndexList T) (x : T) (j : Index) (l2 : IndexList T),
       l.push_front x = PRes.ok (j, l2) →
         l2.generation = l.generation ∧ j.generation = l.generation ∧
         occData (l2.contents[j.index]?) = some (x, l.generation)) ∧
    (∀ (l : IndexList T) (u : Index) (x : T) (j : Index) (l2 : IndexList T),
       l.insert_before u x = PRes.ok (some j, l2) →
         l2.generation = l.generation ∧ j.generation = l.generation ∧
         occData (l2.contents[j.index]?) = some (x, l.generation)) ∧
    (∀ (l : IndexList T) (u : Index) (x : T) (j : Index) (l2 : IndexList T),
       l.insert_after u x = PRes.ok (some j, l2) →
         l2.generation = l.generation ∧ j.generation = l.generation ∧
         occData (l2.contents[j.index]?) = some (x, l.generation)) ∧
    (∀ (l : IndexList T) (x : T) (j : Index) (l2 : IndexList T),
       l.push_back x = PRes.ok (j, l2) →
         ∀ p : Nat, p ≠ j.index →
           occData (l2.contents[p]?) = occData (l.contents[p]?)) ∧
    (∀ (l : IndexList T) (t : Index) (v : T) (l2 : IndexList T),
       l.remove t = PRes.ok (some v, l2) →
         ∀ p : Nat, p ≠ t.index →
           occData (l2.contents[p]?) = occData (l.contents[p]?)) ∧
    (∀ (l : IndexList T) (x : T) (j : Index) (l2 : IndexList T),
       l.push_front x = PRes.ok (j, l2) →
         ∀ p : Nat, p ≠ j.index →
           occData (l2.contents[p]?) = occData (l.contents[p]?)) ∧
    (∀ (l : IndexList T) (u : Index) (x : T) (j : Index) (l2 : IndexList T),
       l.insert_before u x = PRes.ok (some j, l2) →
         ∀ p : Nat, p ≠ j.index →
           occData (l2.contents[p]?) = occData (l.contents[p]?)) ∧
    (∀ (l : IndexList T) (u : Index) (x : T) (j : Index) (l2 : IndexList T),
       l.insert_after u x = PRes.ok (some j, l2) →
         ∀ p : Nat, p ≠ j.index →
           occData (l2.contents[p]?) = occData (l.contents[p]?)) ∧
    (∀ (l : IndexList T) (v : T) (l2 : IndexList T),
       l.pop_front = PRes.ok (some v, l2) →
         ∀ p : Nat, l.head ≠ some p →
           occData (l2.contents[p]?) = occData (l.contents[p]?)) ∧
    (∀ (l : IndexList T) (u : Index) (x : T) (l2 : IndexList T),
       l.insert_before u x = PRes.ok (none, l2) → l2 = l) ∧
    (∀ (l : IndexList T) (u : Index) (x : T) (l2 : IndexList T),
       l.insert_after u x = PRes.ok (none, l2) → l2 = l) ∧
    (∀ (l : IndexList T) (t : Index) (l2 : IndexList T),
       l.remove t = PRes.ok (none, l2) → l2 = l) ∧
    (∀ (l : IndexList T) (l2 : IndexList T),
       l.pop_front = PRes.ok (none, l2) → l2 = l) := by
  refine ⟨?_, ?_, ?_, ?_, ?_, ?_, ?_, ?_, ?_, ?_, ?_, ?_, ?_, ?_, ?_, ?_, ?_⟩
  · intro l t v l2 h
    exact (remove_some h).1
  · intro l v l2 h
    obtain ⟨hi, -, hg, -⟩ := pop_front_some h
    exact hg
  · intro l o l2 h
    cases o with
    | pushBack x =>
      unfold applyOp at h
      simp only [] at h
      rcases hpb : l.push_back x with - | ⟨j, l3⟩
      · rw [hpb] at h
        simp at h
      · rw [hpb] at h
        simp only [PRes.ok.injEq] at h
        subst h
        exact le_of_eq (push_back_ok hpb).1.symm
    | pushFront x =>
      unfold applyOp at h
      simp only [] at h
      rcases hpb : l.push_front x with - | ⟨j, l3⟩
      · rw [hpb] at h
        simp at h
      · rw [hpb] at h
        simp only [PRes.ok.injEq] at h
        subst h
        exact le_of_eq (push_front_ok hpb).1.symm
    | insertBefore t x =>
      unfold applyOp at h
      simp only [] at h
      rcases hib : l.insert_before t x with - | ⟨r, l3⟩
      · rw [hib] at h
        simp at h
      · rw [hib] at h
        simp only [PRes.ok.injEq] at h
        subst h
        rcases r with - | j
        · rw [insert_before_none hib]
        · exact le_of_eq (insert_before_some hib).1.symm
    | insertAfter t x =>
      unfold applyOp at h
      simp only [] at h
      rcases hib : l.insert_after t x with - | ⟨r, l3⟩
      · rw [hib] at h
        simp at h
      · rw [hib] at h
        simp only [PRes.ok.injEq] at h
        subst h
        rcases r with - | j
        · rw [insert_after_none hib]
        · exact le_of_eq (insert_after_some hib).1.symm
    | removeAt t =>
      unfold applyOp at h
      simp only [] at h
      rcases hr : l.remove t with - | ⟨r, l3⟩
      · rw [hr] at h
        simp at h
      · rw [hr] at h
        simp only [PRes.ok.injEq] at h
        subst h
        rcases r with - | w
        · rw [remove_none hr]
        · rw [(remove_some hr).1]
          exact Nat.le_succ _
    | popFront =>
      unfold applyOp at h
      simp only [] at h
      rcases hr : l.pop_front with - | ⟨r, l3⟩
      · rw [hr] at h
        simp at h
      · rw [hr] at h
        simp only [PRes.ok.injEq] at h
        subst h
        rcases r with - | w
        · rw [pop_front_none hr]
        · obtain ⟨hi, -, hg, -⟩ := pop_front_some hr
          rw [hg]
          exact Nat.le_succ _
  · intro l x j l2 h
    obtain ⟨h1, h2, -, h4, -, -⟩ := push_back_ok h
    exact ⟨h1, h2, h4⟩
  · intro l x j l2 h
    obtain ⟨h1, h2, -, h4, -, -⟩ := push_front_ok h
    exact ⟨h1, h2, h4⟩
  · intro l u x j l2 h
    obtain ⟨h1, h2, -, h4, -, -⟩ := insert_before_some h
    exact ⟨h1, h2, h4⟩
  · intro l u x j l2 h
    obtain ⟨h1, h2, -, h4, -, -⟩ := insert_after_some h
    exact ⟨h1, h2, h4⟩
  · intro l x j l2 h
    exact (push_back_ok h).2.2.2.2.1
  · intro l t v l2 h
    exact (remove_some h).2.2.2.2.1
  · intro l x j l2 h
    exact (push_front_ok h).2.2.2.2.1
  · intro l u x j l2 h
    exact (insert_before_some h).2.2.2.2.1
  · intro l u x j l2 h
    exact (insert_after_some h).2.2.2.2.1
  · intro l v l2 h p hp
    obtain ⟨hi, hhd, -, -, -, -, hfr, -⟩ := pop_front_some h
    exact hfr p (fun he => hp (by rw [hhd, he]))
  · intro l u x l2 h
    exact insert_before_none h
  · intro l u x l2 h
    exact insert_after_none h
  · intro l t l2 h
    exact remove_none h
  · intro l l2 h
    exact pop_front_none h

/-- Witness for claim C3 at a concrete input: removing the middle element of
`sampleBack3` bumps the generation from 0 to 1. -/
theorem c3_witness : sampleRemoved.generation = sampleBack3.generation + 1 :=
  (@c3_generation_discipline Nat).1 sampleBack3 ⟨1, 0⟩ 10 sampleRemoved (by decide)

open IndexList in
/-- Claim C10: insertions never invalidate existing handles — if `get l i`
returns `v`, then after any single `push_back`, `push_front`,
`insert_before` or `insert_after` (successful or rejected), `get i` still
returns `v`. -/
theorem c10_insertions_preserve_handles {T : Type} {l : IndexList T}
    {i : Index} {v : T} (hv : l.get i = some v) :
    (∀ (x : T) (j : Index) (l2 : IndexList T),
       l.push_back x = PRes.ok (j, l2) → l2.get i = some v) ∧
    (∀ (x : T) (j : Index) (l2 : IndexList T),
       l.push_front x = PRes.ok (j, l2) → l2.get i = some v) ∧
    (∀ (t : Index) (x : T) (r : Option (Index)) (l2 : IndexList T),
       l.insert_before t x = PRes.ok (r, l2) → l2.get i = some v) ∧
    (∀ (t : Index) (x : T) (r : Option (Index)) (l2 : IndexList T),
       l.insert_after t x = PRes.ok (r, l2) → l2.get i = some v) := by
  refine ⟨?_, ?_, ?_, ?_⟩
  · intro x j l2 h
    exact get_after_push_back hv h
  · intro x j l2 h
    exact get_after_push_front hv h
  · intro t x r l2 h
    exact get_after_insert_before hv h
  · intro t x r l2 h
    exact get_after_insert_after hv h

/-- Witness for claim C10: the handle `(0, 0)` of `5` survives `push_back 20`
into the freed slot of `sampleRemoved`. -/
theorem c10_witness : sampleRealloc.get ⟨0, 0⟩ = some 5 :=
  (c10_insertions_preserve_handles
      (show sampleRemoved.get ⟨0, 0⟩ = some 5 from by decide)).1
    20 ⟨1, 1⟩ sampleRealloc (by decide)

open IndexList in
/-- Claim C2: once `remove` succeeds on handle `i` of a container whose
occupied stamps are bounded by its generation counter, `get i` is absent,
and it remains absent after any subsequent insertion — including one that
reuses slot `i.index` — because the freed slot's next occupant is stamped
with the incremented counter. -/
theorem c2_removed_handle_stays_absent {T : Type} {l : IndexList T}
    {i : Index} {v : T} {l2 : IndexList T} (hb : genBound l = true)
    (h : l.remove i = PRes.ok (some v, l2)) :
    l2.get i = none ∧
    (∀ (x : T) (j : Index) (l3 : IndexList T),
       l2.push_back x = PRes.ok (j, l3) → l3.get i = none) ∧
    (∀ (x : T) (j : Index) (l3 : IndexList T),
       l2.push_front x = PRes.ok (j, l3) → l3.get i = none) ∧
    (∀ (t : Index) (x : T) (r : Option (Index)) (l3 : IndexList T),
       l2.insert_before t x = PRes.ok (r, l3) → l3.get i = none) ∧
    (∀ (t : Index) (x : T) (r : Option (Index)) (l3 : IndexList T),
       l2.insert_after t x = PRes.ok (r, l3) → l3.get i = none) := by
  obtain ⟨hgen, -, hocc0, hafter, hfr, -⟩ := remove_some h
  have hile : i.generation ≤ l.generation := genBound_spec hb hocc0
  have hneq : l2.generation ≠ i.generation := by
    rw [hgen]
    omega
  have habs : l2.get i = none := get_eq_none_of_occData_none hafter
  refine ⟨habs, ?_, ?_, ?_, ?_⟩
  · intro x j l3 hp
    obtain ⟨-, -, -, hocc, hfr2, -⟩ := push_back_ok hp
    by_cases hij : i.index = j.index
    · rw [← hij] at hocc
      exact get_eq_none_of_gen_ne hocc hneq
    · apply get_eq_none_of_occData_none
      rw [hfr2 i.index hij, hafter]
  · intro x j l3 hp
    obtain ⟨-, -, -, hocc, hfr2, -⟩ := push_front_ok hp
    by_cases hij : i.index = j.index
    · rw [← hij] at hocc
      exact get_eq_none_of_gen_ne hocc hneq
    · apply get_eq_none_of_occData_none
      rw [hfr2 i.index hij, hafter]
  · intro t x r l3 hp
    rcases r with - | j
    · rw [insert_before_none hp]
      exact habs
    · obtain ⟨-, -, -, hocc, hfr2, -⟩ := insert_before_some hp
      by_cases hij : i.index = j.index
      · rw [← hij] at hocc
        exact get_eq_none_of_gen_ne hocc hneq
      · apply get_eq_none_of_occData_none
        rw [hfr2 i.index hij, hafter]
  · intro t x r l3 hp
    rcases r with - | j
    · rw [insert_after_none hp]
      exact habs
    · obtain ⟨-, -, -, hocc, hfr2, -⟩ := insert_after_some hp
      by_cases hij : i.index = j.index
      · rw [← hij] at hocc
        exact get_eq_none_of_gen_ne hocc hneq
      · apply get_eq_none_of_occData_none
        rw [hfr2 i.index hij, hafter]

/-- Witness for claim C2: the removed handle `(1, 0)` stays absent in
`sampleRemoved` and still after `push_back 20` reoccupies slot 1. -/
theorem c2_witness :
    sampleRemoved.get ⟨1, 0⟩ = none ∧ sampleRealloc.get ⟨1, 0⟩ = none :=
  ⟨(c2_removed_handle_stays_absent (by decide)
      (show sampleBack3.remove ⟨1, 0⟩ = PRes.ok (some 10, sampleRemoved) from
        by decide)).1,
   (c2_removed_handle_stays_absent (by decide)
      (show sampleBack3.remove ⟨1, 0⟩ = PRes.ok (some 10, sampleRemoved) from
        by decide)).2.1 20 ⟨1, 1⟩ sampleRealloc (by decide)⟩

open IndexList in
/-- Claim C5: a handle to a live element keeps returning its value through any
sequence of operations as long as no step of the run removes that element —
insertions and removals elsewhere never disturb it. -/
theorem c5_handle_stable_until_removed {T : Type} {i : Index} {v : T} :
    ∀ (ops : List (Op T)) (l l2 : IndexList T),
      l.get i = some v → noRemove l i ops = true →
      runOps l ops = PRes.ok l2 → l2.get i = some v := by
  intro ops
  induction ops with
  | nil =>
    intro l l2 hv hn hr
    unfold runOps at hr
    simp only [PRes.ok.injEq] at hr
    subst hr
    exact hv
  | cons o os ih =>
    intro l l2 hv hn hr
    unfold noRemove at hn
    simp only [Bool.and_eq_true, Bool.not_eq_true'] at hn
    obtain ⟨hn1, hn2⟩ := hn
    unfold runOps at hr
    rcases hap : applyOp l o with - | l3
    · rw [hap] at hr
      simp at hr
    · rw [hap] at hr
      simp only [] at hr
      rw [hap] at hn2
      simp only [] at hn2
      exact ih l3 l2 (step_preserves_get hv hap hn1) hn2 hr

/-- Witness for claim C5: the handle `(1, 0)` of `10` in `sampleBack3`
survives the run `remove (2,0); push_back 20; pop_front`. -/
theorem c5_witness : sampleRun.get ⟨1, 0⟩ = some 10 :=
  c5_handle_stable_until_removed
    [Op.removeAt ⟨2, 0⟩, Op.pushBack 20, Op.popFront] sampleBack3 sampleRun
    (by decide) (by decide) (by decide)

open IndexList in
/-- Claim C4: starting from the empty container, a pure `push_back` sequence
iterates in exactly insertion order, and a pure `push_front` sequence
iterates in exactly reverse insertion order. -/
theorem c4_iteration_order {T : Type} :
    (∀ (xs : List T) (l : IndexList T),
       pushBackAll (IndexList.empty T) xs = PRes.ok l →
         l.iterList = PRes.ok xs) ∧
    (∀ (xs : List T) (l : IndexList T),
       pushFrontAll (IndexList.empty T) xs = PRes.ok l →
         l.iterList = PRes.ok xs.reverse) := by
  constructor
  · intro xs l h
    have h2 : pushBackAll (backList ([] : List T)) xs =
        PRes.ok (backList ([] ++ xs)) := pushBackAll_backList [] xs
    have h3 : backList ([] : List T) = IndexList.empty T := rfl
    rw [h3] at h2
    rw [h2] at h
    simp only [PRes.ok.injEq] at h
    subst h
    simpa using iterList_backList ([] ++ xs)
  · intro xs l h
    have h2 : pushFrontAll (frontList ([] : List T)) xs =
        PRes.ok (frontList ([] ++ xs)) := pushFrontAll_frontList [] xs
    have h3 : frontList ([] : List T) = IndexList.empty T := rfl
    rw [h3] at h2
    rw [h2] at h
    simp only [PRes.ok.injEq] at h
    subst h
    simpa using iterList_frontList ([] ++ xs)

/-- Witness for claim C4: pushing 5, 10, 15 on the back iterates as
`[5, 10, 15]`; pushing them on the front iterates as `[15, 10, 5]`. -/
theorem c4_witness :
    sampleBack3.iterList = PRes.ok [5, 10, 15] ∧
    (frontList [5, 10, 15]).iterList = PRes.ok [15, 10, 5] :=
  ⟨(@c4_iteration_order Nat).1 [5, 10, 15] sampleBack3 (by decide),
   (@c4_iteration_order Nat).2 [5, 10, 15] (frontList [5, 10, 15]) (by decide)⟩

/-- Claim C7 (counterexample): in the well-formed two-element list
`sampleTwo`, the handle `(1, 0)` is live and is not the head, yet
`prev_index (next_index h)` is absent rather than `h` — the first
round-trip of the claim needs "not the tail", not "not the head". -/
theorem c7_counterexample :
    linkedOk sampleTwo = true ∧
    sampleTwo.get ⟨1, 0⟩ = some 10 ∧
    sampleTwo.head ≠ some (⟨1, 0⟩ : Index).index ∧
    (sampleTwo.next_index ⟨1, 0⟩).bind (fun k => sampleTwo.prev_index k) ≠
      some ⟨1, 0⟩ := by
  decide

open IndexList in
/-- Claim C7 (amended): in a container satisfying the doubly-linked local
invariant, for every live handle `i` that is not the tail,
`prev_index (next_index i) = some i`, and for every live handle `i` that is
not the head, `next_index (prev_index i) = some i`. -/
theorem c7_neighbor_roundtrips {T : Type} {l : IndexList T} {i : Index}
    {v : T} (hw : linkedOk l = true) (hv : l.get i = some v) :
    (l.tail ≠ some i.index →
       (l.next_index i).bind (fun k => l.prev_index k) = some i) ∧
    (l.head ≠ some i.index →
       (l.prev_index i).bind (fun k => l.next_index k) = some i) := by
  obtain ⟨e, hc, hg, -⟩ := get_some_iff.mp hv
  obtain ⟨hnx, hnt, hpv, hph⟩ := linkedOk_spec hw hc
  constructor
  · intro htl
    rcases hq : e.next with - | q
    · exact absurd (hnt hq) htl
    · obtain ⟨e2, hc2, hback⟩ := hnx q hq
      have h1 : l.next_index i = some ⟨q, e2.generation⟩ := by
        unfold next_index
        rw [hc]
        simp only []
        rw [if_pos hg, hq]
        simp only []
        rw [hc2]
      rw [h1]
      show l.prev_index ⟨q, e2.generation⟩ = some i
      unfold prev_index
      simp only []
      rw [hc2]
      simp only []
      rw [if_pos (by trivial), hback]
      simp only []
      rw [hc]
      simp only []
      rw [hg]
  · intro hhd
    rcases hq : e.prev with - | q
    · exact absurd (hph hq) hhd
    · obtain ⟨e2, hc2, hback⟩ := hpv q hq
      have h1 : l.prev_index i = some ⟨q, e2.generation⟩ := by
        unfold prev_index
        rw [hc]
        simp only []
        rw [if_pos hg, hq]
        simp only []
        rw [hc2]
      rw [h1]
      show l.next_index ⟨q, e2.generation⟩ = some i
      unfold next_index
      simp only []
      rw [hc2]
      simp only []
      rw [if_pos (by trivial), hback]
      simp only []
      rw [hc]
      simp only []
      rw [hg]

/-- Witness for amended claim C7: both round-trips hold at the middle element
`(1, 0)` of `sampleBack3`. -/
theorem c7_witness :
    (sampleBack3.next_index ⟨1, 0⟩).bind (fun k => sampleBack3.prev_index k) =
        some ⟨1, 0⟩ ∧
    (sampleBack3.prev_index ⟨1, 0⟩).bind (fun k => sampleBack3.next_index k) =
        some ⟨1, 0⟩ :=
  ⟨(c7_neighbor_roundtrips (by decide)
      (show sampleBack3.get ⟨1, 0⟩ = some 10 from by decide)).1 (by decide),
   (c7_neighbor_roundtrips (by decide)
      (show sampleBack3.get ⟨1, 0⟩ = some 10 from by decide)).2 (by decide)⟩

/-- Witness for claim C9: the structural-equality characterization applied
to `sampleOne` against itself. -/
theorem c9_witness : indexListEq sampleOne sampleOne = true :=
  (c9_equality_is_structural.1 Nat inferInstance sampleOne sampleOne).mpr
    ⟨rfl, rfl, rfl, rfl, rfl⟩
